import Mathlib

/-!
Verification development for the mirador workflow engine
(`mirador/engine/streaming_executor.py`, `mirador/engine/scheduler.py`,
`mirador/engine/publish_registry.py`, `mirador/api/ws_dashboard.py`).

The Python code is shallowly embedded: Python dicts become association
lists over `String` keys (insertion-ordered, unique keys), in-place
mutation becomes explicit state passing, and raising code returns
`Except`/`Option` values.  Python sets are modelled as `List String`
in first-insertion order (CPython iteration order of a set is
unspecified; the claims proved here do not depend on the enumeration
chosen).
-/

namespace Mirador

/-! ## Python dict primitives

`pySet d k v` is `d[k] = v`, `dictGet` is `d.get(k)`, `pyDel` is
`del d[k]` (on dicts with unique keys), `dictUpdate` is `d.update(other)`.
-/

/-- Python `d.get(k)`: value at the first occurrence of key `k`. -/
def dictGet {α : Type} : List (String × α) → String → Option α
  | [], _ => none
  | p :: rest, k => if p.1 = k then some p.2 else dictGet rest k

/-- Python `d.get(k, [])`. -/
def getList {α : Type} (d : List (String × List α)) (k : String) : List α :=
  (dictGet d k).getD []

/-- Python `d[k] = v` on a dict with unique keys: replace the value of the
first occurrence of `k`, or append a fresh binding. -/
def pySet {α : Type} : List (String × α) → String → α → List (String × α)
  | [], k, v => [(k, v)]
  | p :: rest, k, v => if p.1 = k then (k, v) :: rest else p :: pySet rest k v

/-- Python `d.pop(k, None)` / `del d[k]` on a dict with unique keys. -/
def pyDel {α : Type} (d : List (String × α)) (k : String) : List (String × α) :=
  d.filter (fun p => !(p.1 == k))

/-- Python `d.update(other)`: assign every binding of `other` in order. -/
def dictUpdate {α : Type} (d other : List (String × α)) : List (String × α) :=
  other.foldl (fun acc p => pySet acc p.1 p.2) d

/-- Python `defaultdict(list)` append `m[k].append(v)`: extend the list at
the first occurrence of `k`, or append a fresh singleton binding. -/
def alistPush : List (String × List String) → String → String → List (String × List String)
  | [], k, v => [(k, [v])]
  | p :: rest, k, v =>
    if p.1 = k then (p.1, p.2 ++ [v]) :: rest else p :: alistPush rest k v

/-- Python `lst[start:stop]` for non-negative bounds. -/
def pySlice {α : Type} (l : List α) (start stop : Nat) : List α :=
  (l.drop start).take (stop - start)

/-! ## Graph model (`streaming_executor.py`) -/

/-- An edge of a pipeline graph: `{"source": ..., "target": ...}`. -/
structure Edge where
  source : String
  target : String
deriving DecidableEq

/-- `[e for e in edges if e["source"] in node_ids and e["target"] in node_ids]`
(from `StreamingExecutor._topo_sort`). -/
def subsetEdges (nodeIds : List String) (edges : List Edge) : List Edge :=
  edges.filter (fun e => nodeIds.contains e.source && nodeIds.contains e.target)

/-- The `downstream` adjacency of `_topo_sort`: targets of edges leaving `n`,
in edge order. -/
def targetsOf (ses : List Edge) (n : String) : List String :=
  ses.filterMap (fun e => if e.source = n then some e.target else none)

/-- Direct predecessors of `n` among a list of edges, in edge order. -/
def sourcesOf (ses : List Edge) (n : String) : List String :=
  ses.filterMap (fun e => if e.target = n then some e.source else none)

/-- The `upstream` map of `_topo_sort`: a `defaultdict(list)` filled by
`upstream[e["target"]].append(e["source"])` over the subset edges. -/
def upstreamAList (ses : List Edge) : List (String × List String) :=
  ses.foldl (fun m e => alistPush m e.target e.source) []

/-- The body of the `for t in downstream[n_id]` loop of `_topo_sort`:
decrement `in_degree[t]` and enqueue `t` when it reaches zero. -/
def stepTargets : (String → Int) → List String → List String → ((String → Int) × List String)
  | inDeg, queue, [] => (inDeg, queue)
  | inDeg, queue, t :: ts =>
    let d := inDeg t - 1
    stepTargets (Function.update inDeg t d) (if d = 0 then queue ++ [t] else queue) ts

/-- The `while queue:` loop of `_topo_sort` (Kahn's algorithm), with fuel.
The loop pops one node per iteration and every node is enqueued at most
once, so `nodeIds.length` fuel never runs out on the real inputs
(established by `kahnLoop_spec`). -/
def kahnLoop (down : String → List String) :
    Nat → (String → Int) → List String → List String → List String
  | 0, _, _, order => order
  | fuel + 1, inDeg, queue, order =>
    match queue with
    | [] => order
    | n :: rest =>
      let p := stepTargets inDeg rest (down n)
      kahnLoop down fuel p.1 p.2 (order ++ [n])

/-- The initial `in_degree` map of `_topo_sort`: each node starts at the
number of subset edges targeting it. -/
def inDeg0Of (ses : List Edge) : String → Int :=
  fun n => ((ses.filter (fun e => e.target == n)).length : Int)

/-- The initial queue of `_topo_sort`: the nodes of in-degree zero, in
enumeration order. -/
def queue0Of (nodeIds : List String) (ses : List Edge) : List String :=
  nodeIds.filter (fun n => inDeg0Of ses n == 0)

/-- The full `while queue:` run of `_topo_sort`. -/
def kahnRun (nodeIds : List String) (ses : List Edge) : List String :=
  kahnLoop (fun n => targetsOf ses n) nodeIds.length (inDeg0Of ses)
    (queue0Of nodeIds ses) []

/-- `StreamingExecutor._topo_sort(node_ids, edges)`.  `nodeIds` enumerates
the Python set `node_ids`.  Returns the topological order and the upstream
map, or an error when a cycle is detected. -/
def topoSort (nodeIds : List String) (edges : List Edge) :
    Except String (List String × List (String × List String)) :=
  let ses := subsetEdges nodeIds edges
  let order := kahnRun nodeIds ses
  if order.length = nodeIds.length then
    Except.ok (order, upstreamAList ses)
  else
    Except.error "Cycle detected in subgraph"

/-- A nonempty directed path along a list of edges. -/
inductive EPath (E : List Edge) : String → String → Prop
  | base {a b : String} : Edge.mk a b ∈ E → EPath E a b
  | cons {a b c : String} : Edge.mk a b ∈ E → EPath E b c → EPath E a c

/-- The induced subgraph on `nodeIds` contains a directed cycle. -/
def HasCycle (nodeIds : List String) (edges : List Edge) : Prop :=
  ∃ v, EPath (subsetEdges nodeIds edges) v v

/-- `a` occurs strictly before `b` in `l`. -/
def idxLt (l : List String) (a b : String) : Prop :=
  a ∈ l ∧ b ∈ l ∧ l.indexOf a < l.indexOf b

/-! ## StreamingExecutor (`streaming_executor.py`)

Node outputs, configs and the `TableEnv` content are dicts over an
abstract value type `V`; exceptions are an abstract type `ε`.  A node
instance's `execute(inputs, config, env)` both mutates the env (state
passing: it returns the new env) and either returns an output dict or
raises; partial env writes made before a raise persist. -/

/-- A pipeline node definition `{"id": ..., "type": ..., "config": ...}`. -/
structure NodeDef (V : Type) where
  id : String
  type : String
  config : List (String × V)

/-- The behaviour of a node class as resolved by `registry.get(type)`:
its `meta.category`, its `execute`, and (for stream sources) the outcome
of `setup(config)` and of `subscribe(callback)`. -/
structure NodeClass (V ε : Type) where
  category : String
  execute : List (String × V) → List (String × V) → List (String × V) →
    (List (String × V) × Except ε (List (String × V)))
  setup : List (String × V) → Except ε Unit
  subscribeResult : Except ε Unit

/-- A pipeline definition: `{"nodes": [...], "edges": [...]}`. -/
structure Pipeline (V : Type) where
  nodes : List (NodeDef V)
  edges : List Edge

/-- `nodes = {n["id"]: n for n in pipeline["nodes"]}`. -/
def nodesByIdOf {V : Type} (p : Pipeline V) : List (String × NodeDef V) :=
  p.nodes.foldl (fun m n => pySet m n.id n) []

/-- `nodes[n_id]` where `n_id` is known to be a key (the default is never
reached on the inputs produced by `start`). -/
def getNodeD {V : Type} (nodesById : List (String × NodeDef V)) (nid : String) : NodeDef V :=
  (dictGet nodesById nid).getD ⟨nid, "", []⟩

/-- Ids of the partition class of nodes whose registry category satisfies
`pred`, in dict iteration order (models the sets built in `start`). -/
def idsWithCat {V ε : Type} (reg : String → NodeClass V ε) (p : Pipeline V)
    (pred : String → Bool) : List String :=
  (nodesByIdOf p).filterMap (fun kv => if pred (reg kv.2.type).category then some kv.1 else none)

/-- The `init_ids` partition of `start`. -/
def initIdsOf {V ε : Type} (reg : String → NodeClass V ε) (p : Pipeline V) : List String :=
  idsWithCat reg p (fun c => c == "init")

/-- The `source_ids` partition of `start`. -/
def sourceIdsOf {V ε : Type} (reg : String → NodeClass V ε) (p : Pipeline V) : List String :=
  idsWithCat reg p (fun c => c == "stream_source")

/-- The `processing_ids` partition of `start`. -/
def processingIdsOf {V ε : Type} (reg : String → NodeClass V ε) (p : Pipeline V) : List String :=
  idsWithCat reg p (fun c => c != "init" && c != "stream_source")

/-- The mutable state of a `StreamingExecutor` instance. `sources` holds the
ids of the sources appended to `self._sources` (subscription succeeded);
`onTickComplete` is `self._on_tick_complete`, modelled as an env
transformer that may also raise. -/
structure ExecutorState (V ε : Type) where
  running : Bool
  env : List (String × V)
  onTickComplete : Option (List (String × V) → (List (String × V) × Option ε))
  chainOrder : List String
  chainUpstream : List (String × List String)
  sourceToProcessing : List (String × List String)
  sourceReachable : List (String × List String)
  nodesById : List (String × NodeDef V)
  sourceIds : List String
  sources : List String

/-- A freshly constructed executor (`__init__`). -/
def initExecutorState (V ε : Type) : ExecutorState V ε :=
  { running := false, env := [], onTickComplete := none, chainOrder := [],
    chainUpstream := [], sourceToProcessing := [], sourceReachable := [],
    nodesById := [], sourceIds := [], sources := [] }

/-- Exceptions that can escape `start`: the re-entry `RuntimeError`, the
`ValueError` of `_topo_sort` on a cycle, and a node exception raised by a
source's `setup` or `subscribe`. -/
inductive StartExc (ε : Type)
  | alreadyRunning
  | cycle (msg : String)
  | sourceExc (e : ε)
deriving DecidableEq

/-- What `start` did besides mutating the executor state: `raised` is the
exception that propagated out of `start` (`none` = returned normally) and
`initErrorCalls` records the invocations of `on_init_error`. -/
structure StartOutcome (ε : Type) where
  raised : Option (StartExc ε)
  initErrorCalls : List (String × ε)
deriving DecidableEq

/-- The `for n_id in init_order` loop of `start`: execute each init node
with the merged outputs of its upstream init nodes, threading the env.
Returns the final env and either the `init_results` dict or the id of the
failing node with its exception. -/
def runInit {V ε : Type} (reg : String → NodeClass V ε)
    (nodesById : List (String × NodeDef V)) (upstream : List (String × List String)) :
    List String → List (String × V) → List (String × List (String × V)) →
    (List (String × V) × Except (String × ε) (List (String × List (String × V))))
  | [], env, results => (env, Except.ok results)
  | nid :: rest, env, results =>
    let nodeDef := getNodeD nodesById nid
    let nc := reg nodeDef.type
    let inputs := (getList upstream nid).foldl
      (fun acc upId => dictUpdate acc (getList results upId)) []
    let r := nc.execute inputs nodeDef.config env
    match r.2 with
    | Except.ok output => runInit reg nodesById upstream rest r.1 (pySet results nid output)
    | Except.error e => (r.1, Except.error (nid, e))

/-- `source_to_processing`: direct edges from sources to processing nodes. -/
def sourceToProcessingOf (edges : List Edge) (sourceIds processingIds : List String) :
    List (String × List String) :=
  edges.foldl
    (fun m e =>
      if sourceIds.contains e.source && processingIds.contains e.target then
        alistPush m e.source e.target
      else m)
    []

/-- `processing_downstream`: edges between processing nodes. -/
def processingDownstreamOf (edges : List Edge) (processingIds : List String) :
    List (String × List String) :=
  edges.foldl
    (fun m e =>
      if processingIds.contains e.source && processingIds.contains e.target then
        alistPush m e.source e.target
      else m)
    []

/-- The BFS of `start` computing the processing nodes reachable from one
source, with fuel.  Every enqueue beyond the initial queue pushes the
downstream list of a node visited for the first time, so the fuel chosen
in `sourceReachableOf` bounds the iteration count on the real inputs. -/
def bfsReachable (pd : List (String × List String)) :
    Nat → List String → List String → List String
  | 0, _, reachable => reachable
  | _ + 1, [], reachable => reachable
  | fuel + 1, n :: queue, reachable =>
    if reachable.contains n then bfsReachable pd fuel queue reachable
    else bfsReachable pd fuel (queue ++ getList pd n) (reachable ++ [n])

/-- `self._source_reachable`: per source, the set of processing nodes
reachable through processing edges (as a list in visit order). -/
def sourceReachableOf (s2p pd : List (String × List String)) (sourceIds : List String) :
    List (String × List String) :=
  sourceIds.map (fun sid =>
    let queue0 := getList s2p sid
    let fuel := queue0.length + (pd.map (fun q => q.2.length)).sum + 1
    (sid, bfsReachable pd fuel queue0 []))

/-- The `for s_id in source_ids` subscription loop of `start`: instantiate
each source, `setup(config)` then `subscribe(cb)`; a raise propagates
(only sources subscribed so far are in `self._sources`). -/
def subscribeSources {V ε : Type} (reg : String → NodeClass V ε)
    (nodesById : List (String × NodeDef V)) :
    ExecutorState V ε → List String → (ExecutorState V ε × StartOutcome ε)
  | st, [] => (st, ⟨none, []⟩)
  | st, sid :: rest =>
    let nodeDef := getNodeD nodesById sid
    let nc := reg nodeDef.type
    match nc.setup nodeDef.config with
    | Except.error e => (st, ⟨some (StartExc.sourceExc e), []⟩)
    | Except.ok _ =>
      match nc.subscribeResult with
      | Except.error e => (st, ⟨some (StartExc.sourceExc e), []⟩)
      | Except.ok _ =>
        subscribeSources reg nodesById { st with sources := st.sources ++ [sid] } rest

/-- `StreamingExecutor.start(pipeline, env, on_tick_complete, on_init_error)`.
`hasOnInitError` models whether an `on_init_error` callback was passed
(the call is guarded by `if on_init_error:`). -/
def start {V ε : Type} (reg : String → NodeClass V ε) (p : Pipeline V)
    (env : List (String × V))
    (onTick : Option (List (String × V) → (List (String × V) × Option ε)))
    (hasOnInitError : Bool) (st : ExecutorState V ε) :
    ExecutorState V ε × StartOutcome ε :=
  if st.running then (st, ⟨some StartExc.alreadyRunning, []⟩)
  else
    let st1 := { st with env := env, onTickComplete := onTick, running := true }
    let nodesById := nodesByIdOf p
    let initIds := initIdsOf reg p
    let sourceIds := sourceIdsOf reg p
    let processingIds := processingIdsOf reg p
    let afterInit : ExecutorState V ε × Option (ExecutorState V ε × StartOutcome ε) :=
      if initIds.isEmpty then (st1, none)
      else
        match topoSort initIds p.edges with
        | Except.error msg => (st1, some (st1, ⟨some (StartExc.cycle msg), []⟩))
        | Except.ok (initOrder, initUpstream) =>
          let r := runInit reg nodesById initUpstream initOrder env []
          match r.2 with
          | Except.error (nid, e) =>
            let stf := { st1 with env := r.1, running := false }
            (stf, some (stf, ⟨none, if hasOnInitError then [(nid, e)] else []⟩))
          | Except.ok _ => ({ st1 with env := r.1 }, none)
    match afterInit.2 with
    | some result => result
    | none =>
      let st2 := afterInit.1
      match topoSort processingIds p.edges with
      | Except.error msg => (st2, ⟨some (StartExc.cycle msg), []⟩)
      | Except.ok (chainOrder, chainUpstream) =>
        let s2p := sourceToProcessingOf p.edges sourceIds processingIds
        let pd := processingDownstreamOf p.edges processingIds
        let st3 := { st2 with
          chainOrder := chainOrder, chainUpstream := chainUpstream,
          sourceToProcessing := s2p,
          sourceReachable := sourceReachableOf s2p pd sourceIds,
          nodesById := nodesById, sourceIds := sourceIds }
        subscribeSources reg nodesById st3 sourceIds

/-- `stop()`: mark not running, unsubscribe every source (exceptions are
logged and swallowed), clear the source list. -/
def stop {V ε : Type} (st : ExecutorState V ε) : ExecutorState V ε :=
  { st with running := false, sources := [] }

/-- Observable events of one `_on_message` call, in order. -/
inductive TickEvent (ε : Type)
  | lockAcquire
  | nodeExecuted (id : String)
  | nodeFailed (id : String) (e : ε)
  | lockRelease
  | tickCompleteCalled
  | tickCompleteRaised (e : ε)
deriving DecidableEq

/-- The `for n_id in self._chain_order` loop of `_on_message`: run each
reachable processing node on the merged upstream outputs (plus the source
message for direct downstream nodes), threading env and the `outputs`
dict.  Returns the final env, the node events, and `tick_ok`. -/
def runChain {V ε : Type} (reg : String → NodeClass V ε)
    (nodesById : List (String × NodeDef V)) (chainUpstream : List (String × List String))
    (directTargets reachable : List String) (data : List (String × V)) :
    List String → List (String × V) → List (String × List (String × V)) →
    (List (String × V) × List (TickEvent ε) × Bool)
  | [], env, _ => (env, [], true)
  | nid :: rest, env, outputs =>
    if reachable.contains nid then
      let nodeDef := getNodeD nodesById nid
      let nc := reg nodeDef.type
      let inputs0 := (getList chainUpstream nid).foldl
        (fun acc upId => dictUpdate acc (getList outputs upId)) []
      let inputs := if directTargets.contains nid then dictUpdate inputs0 data else inputs0
      let r := nc.execute inputs nodeDef.config env
      match r.2 with
      | Except.ok output =>
        let rec' := runChain reg nodesById chainUpstream directTargets reachable data
          rest r.1 (pySet outputs nid output)
        (rec'.1, TickEvent.nodeExecuted nid :: rec'.2.1, rec'.2.2)
      | Except.error e => (r.1, [TickEvent.nodeFailed nid e], false)
    else runChain reg nodesById chainUpstream directTargets reachable data rest env outputs

/-- The chain traversal of one tick, with the arguments `_on_message`
passes to it. -/
def tickRun {V ε : Type} (reg : String → NodeClass V ε) (st : ExecutorState V ε)
    (sourceId : String) (data : List (String × V)) :
    (List (String × V) × List (TickEvent ε) × Bool) :=
  runChain reg st.nodesById st.chainUpstream
    (getList st.sourceToProcessing sourceId) (getList st.sourceReachable sourceId)
    data st.chainOrder st.env [(sourceId, data)]

/-- `StreamingExecutor._on_message(source_id, data)`: run the tick under
the lock, then — outside the lock and only when the tick succeeded —
invoke `on_tick_complete`, swallowing any exception it raises.  Returns
the new state and the event trace. -/
def onMessage {V ε : Type} (reg : String → NodeClass V ε) (st : ExecutorState V ε)
    (sourceId : String) (data : List (String × V)) :
    ExecutorState V ε × List (TickEvent ε) :=
  if st.running = false then (st, [])
  else
    let r := tickRun reg st sourceId data
    let trace0 := TickEvent.lockAcquire :: r.2.1 ++ [TickEvent.lockRelease]
    if r.2.2 then
      match st.onTickComplete with
      | some cb =>
        let c := cb r.1
        ({ st with env := c.1 },
          trace0 ++ [TickEvent.tickCompleteCalled] ++
            (match c.2 with
             | some e => [TickEvent.tickCompleteRaised e]
             | none => []))
      | none => ({ st with env := r.1 }, trace0)
    else ({ st with env := r.1 }, trace0)

/-! ## Scheduler (`scheduler.py`) -/

/-- The result of `CronTrigger(minute=..., hour=..., day=..., month=...,
day_of_week=..., timezone=...)`.  The cron library is an external
collaborator; constructing the trigger from five fields is modelled as
total. -/
structure CronTrigger where
  minute : String
  hour : String
  day : String
  month : String
  dayOfWeek : String
  tz : String
deriving DecidableEq

/-- Python `str.split()` whitespace (space, tab, newline, carriage return,
vertical tab, form feed). -/
def isPySpace (c : Char) : Bool :=
  c = ' ' || c = '\t' || c = '\n' || c = '\r' || c = '\x0b' || c = '\x0c'

/-- Worker for `pySplit`: accumulates the current word (reversed). -/
def pySplitAux : List Char → List Char → List String
  | [], acc => if acc.isEmpty then [] else [String.mk acc.reverse]
  | c :: cs, acc =>
    if isPySpace c then
      if acc.isEmpty then pySplitAux cs [] else String.mk acc.reverse :: pySplitAux cs []
    else pySplitAux cs (c :: acc)

/-- Python `s.split()` with no separator: split on runs of whitespace,
discarding empty fields. -/
def pySplit (s : String) : List String :=
  pySplitAux s.data []

/-- Python `s.strip()`. -/
def pyStrip (s : String) : String :=
  String.mk (((s.data.dropWhile isPySpace).reverse.dropWhile isPySpace).reverse)

/-- `_parse_cron(expression, tz)`: split the stripped expression on
whitespace; raise `ValueError` unless exactly 5 fields remain; otherwise
build the `CronTrigger`. -/
def parseCron (expression : String) (tz : String) : Except String CronTrigger :=
  match pySplit (pyStrip expression) with
  | [minute, hour, day, month, dow] => Except.ok ⟨minute, hour, day, month, dow, tz⟩
  | parts => Except.error ("Expected 5-field cron expression, got " ++ toString parts.length)

/-- The `config` of a scheduler node, as read by `sync_schedules`
(`cron_expression`, `enabled` defaulting to true, `timezone` defaulting
to `"UTC"`). -/
structure SchedConfig where
  cronExpression : Option String
  enabled : Option Bool
  timezone : Option String
deriving DecidableEq

/-- A pipeline node as `sync_schedules` sees it: `node.get("type")` and
`node.get("config", {})`. -/
structure SchedNode where
  nodeType : Option String
  config : SchedConfig
deriving DecidableEq

/-- Python truthiness of `cfg.get("cron_expression")`: a missing key and
the empty string are falsy. -/
def cronTruthy (c : Option String) : Bool :=
  match c with
  | none => false
  | some s => !(s == "")

/-- The `for node in pipeline.get("nodes", [])` loop of `sync_schedules`:
skip nodes that are not schedule triggers, are disabled, have a falsy
cron expression, or whose cron fails to parse (the `ValueError` is caught,
logged and skipped); register a job for the first node that passes and
stop.  Returns the job map and the list of `add_schedule` calls made. -/
def syncLoop (jobs : List (String × String)) (key newJobId : String) :
    List SchedNode → (List (String × String) × List String)
  | [] => (jobs, [])
  | n :: rest =>
    if n.nodeType != some "schedule_trigger" then syncLoop jobs key newJobId rest
    else
      let cronExpr := n.config.cronExpression
      let enabled := n.config.enabled.getD true
      if !(cronTruthy cronExpr) || !enabled then syncLoop jobs key newJobId rest
      else
        let tz := n.config.timezone.getD "UTC"
        match parseCron (cronExpr.getD "") tz with
        | Except.error _ => syncLoop jobs key newJobId rest
        | Except.ok _ => (pySet jobs key newJobId, [newJobId])

/-- `sync_schedules(project_slug, workflow_name, pipeline)`: when the
scheduler is running, first remove any existing job for the key (remove
errors ignored), then scan the nodes.  `newJobId` is the id returned by
`add_schedule` when a job is registered.  Returns the new `_jobs` map and
the `add_schedule` calls made. -/
def syncSchedules (schedulerPresent : Bool) (jobs : List (String × String))
    (key : String) (nodes : List SchedNode) (newJobId : String) :
    (List (String × String) × List String) :=
  if !schedulerPresent then (jobs, [])
  else syncLoop (pyDel jobs key) key newJobId nodes

/-- A run-history entry `{timestamp, status, error?}`. -/
structure RunEntry where
  timestamp : String
  status : String
  error : Option String
deriving DecidableEq

/-- `_MAX_HISTORY`. -/
def maxHistory : Nat := 50

/-- The entry `_run_pipeline_job` builds: `error`/"Workflow not found"
when the pipeline fails to load, `error` with the exception text when
`executor.run` raises, else `ok`.  The `finally` block appends it in
every case, including the early `return`. -/
def mkRunEntry (ts : String) (loadOk : Bool) (runRes : Except String Unit) : RunEntry :=
  if !loadOk then ⟨ts, "error", some "Workflow not found"⟩
  else
    match runRes with
    | Except.ok _ => ⟨ts, "ok", none⟩
    | Except.error e => ⟨ts, "error", some e⟩

/-- The `finally` block of `_run_pipeline_job`: append the entry
(`history.append(entry)`) and, when the result exceeds `_MAX_HISTORY`,
keep only the newest `_MAX_HISTORY` entries (`history[-_MAX_HISTORY:]`). -/
def appendHistory (h : List RunEntry) (e : RunEntry) : List RunEntry :=
  if maxHistory < (h ++ [e]).length then
    (h ++ [e]).drop ((h ++ [e]).length - maxHistory)
  else h ++ [e]

/-- Effect of one `_run_pipeline_job` call on the run history of its key. -/
def runPipelineJob (h : List RunEntry) (ts : String) (loadOk : Bool)
    (runRes : Except String Unit) : List RunEntry :=
  appendHistory h (mkRunEntry ts loadOk runRes)

/-! ## Dashboard table query (`ws_dashboard.py`) -/

/-- A row as served by `_query_table`: a dict of column name to cell. -/
def Row (ρ : Type) := List (String × ρ)

/-- A Teide table handle: `columns`, `len`, and column-major data as
returned by `to_dict`. -/
structure TeideTable (ρ : Type) where
  columns : List String
  colData : List (String × List ρ)
  len : Nat

/-- `table.head(n)`: the table of the first `n` rows. -/
def teideHead {ρ : Type} (t : TeideTable ρ) (n : Nat) : TeideTable ρ :=
  { columns := t.columns,
    colData := t.colData.map (fun p => (p.1, p.2.take n)),
    len := min n t.len }

/-- A value stored in the `TableEnv` as `_query_table` classifies it: a
Teide `Table`, a plain dict (whose `rows`/`columns`/`total` keys may be
absent), or anything else (a list, a string, `None`, ...). -/
inductive TableValue (ρ : Type)
  | teide (t : TeideTable ρ)
  | rawDict (rows : Option (List (Row ρ))) (columns : Option (List String))
      (total : Option Int)
  | other (tag : String)

/-- The page `_query_table` returns: `{"rows": ..., "columns": ..., "total": ...}`. -/
structure Page (ρ : Type) where
  rows : List (Row ρ)
  columns : List String
  total : Int

/-- One row of the Teide branch:
`{col: rows_dict[col][i] for col in columns}`; a missing column key or a
short column raises. -/
def buildTeideRow {ρ : Type} (rowsDict : List (String × List ρ)) (columns : List String)
    (i : Nat) : Except String (Row ρ) :=
  columns.mapM (fun col =>
    match dictGet rowsDict col with
    | none => Except.error "KeyError"
    | some l =>
      match l.get? i with
      | none => Except.error "IndexError"
      | some v => Except.ok (col, v))

/-- The Teide branch of `_query_table`: slice with `head(end)`, then build
row dicts for `i in range(start, min(end, len(rows_dict.get(columns[0], []))))`.
`columns[0]` raises `IndexError` on a table with no columns. -/
def queryTeide {ρ : Type} (t : TeideTable ρ) (page pageSize : Nat) :
    Except String (Page ρ) :=
  let total := t.len
  let start := page * pageSize
  let stop := min (start + pageSize) total
  let sliced := teideHead t stop
  let rowsDict := sliced.colData
  let columns := sliced.columns
  match columns.head? with
  | none => Except.error "IndexError"
  | some c0 =>
    let firstColLen := (getList rowsDict c0).length
    match (List.range' start (min stop firstColLen - start)).mapM
        (buildTeideRow rowsDict columns) with
    | Except.error e => Except.error e
    | Except.ok rows => Except.ok ⟨rows, columns, (total : Int)⟩

/-- `_query_table(table_data, page, page_size, sort, filters)`.
`teideAvail` models whether `from teide.api import Table` succeeds (on
`ImportError` the isinstance check is skipped).  `sort` and `filters` are
accepted and ignored, as in the source. -/
def queryTable {ρ : Type} (teideAvail : Bool) (tableData : TableValue ρ)
    (page pageSize : Nat) (_sort _filters : Option String) : Except String (Page ρ) :=
  match tableData, teideAvail with
  | TableValue.teide t, true => queryTeide t page pageSize
  | TableValue.teide _, false => Except.ok ⟨[], [], 0⟩
  | TableValue.rawDict rows columns total, _ =>
    let rows := rows.getD []
    let columns := columns.getD []
    let total := total.getD (rows.length : Int)
    let start := page * pageSize
    let stop := start + pageSize
    Except.ok ⟨pySlice rows start stop, columns, total⟩
  | TableValue.other _, _ => Except.ok ⟨[], [], 0⟩

/-! ## PublishRegistry (`publish_registry.py`) -/

/-- A registry entry `{"env": env, "executor": executor}`. -/
structure PubEntry (α β : Type) where
  env : α
  executor : β
deriving DecidableEq

/-- The `_running` dict of a `PublishRegistry`, as a finite map. -/
def PubMap (α β : Type) := String → Option (PubEntry α β)

/-- `register(key, env, executor)`: `self._running[key] = {...}` —
overwrites silently. -/
def pubRegister {α β : Type} (m : PubMap α β) (key : String) (env : α) (executor : β) :
    PubMap α β :=
  Function.update m key (some ⟨env, executor⟩)

/-- `unregister(key)`: `self._running.pop(key, None)` — returns the removed
entry (or `none`) and the new map. -/
def pubUnregister {α β : Type} (m : PubMap α β) (key : String) :
    Option (PubEntry α β) × PubMap α β :=
  (m key, Function.update m key none)

/-- `get(key)`. -/
def pubGet {α β : Type} (m : PubMap α β) (key : String) : Option (PubEntry α β) :=
  m key

/-! ## Ghost state for the proofs and concrete witness fixtures -/

/-- Edges into `t` from nodes not yet in `order`. -/
def cntE (E : List Edge) (order : List String) (t : String) : Nat :=
  (E.filter (fun e => e.target == t && !(order.contains e.source))).length

/-- Multiplicity of the edge `n → t`. -/
def kEdges (E : List Edge) (n t : String) : Nat :=
  (E.filter (fun e => e.source == n && e.target == t)).length

/-- The invariant of the `while queue:` loop of `_topo_sort` over the
subset edges `E` and the node enumeration `V`. -/
structure KahnInv (V : List String) (E : List Edge) (inDeg : String → Int)
    (queue order : List String) : Prop where
  nodup : (order ++ queue).Nodup
  subV : ∀ x ∈ order ++ queue, x ∈ V
  deg : ∀ t, inDeg t = (cntE E order t : Int)
  seenZero : ∀ t ∈ order ++ queue, cntE E order t = 0
  unseenPos : ∀ t ∈ V, t ∉ order → t ∉ queue → 0 < cntE E order t
  sorted : ∀ e ∈ E, e.target ∈ order → idxLt order e.source e.target

/-- The condition under which the `sync_schedules` scan registers a job
for a node: a schedule trigger with a truthy cron expression, truthy
`enabled` (default true), and a cron that parses. -/
def schedNodePasses (n : SchedNode) : Bool :=
  n.nodeType == some "schedule_trigger"
    && cronTruthy n.config.cronExpression
    && n.config.enabled.getD true
    && (match parseCron (n.config.cronExpression.getD "")
          (n.config.timezone.getD "UTC") with
        | Except.ok _ => true
        | Except.error _ => false)

/-- Witness for C1: a shared demo registry over `V = Nat`, `ε = String`. -/
def demoReg : String → NodeClass Nat String := fun t =>
  if t = "bad_init" then
    { category := "init",
      execute := fun _ _ env => (env, Except.error "init boom"),
      setup := fun _ => Except.ok (), subscribeResult := Except.ok () }
  else if t = "good_init" then
    { category := "init",
      execute := fun _ _ env => (pySet env "ready" 1, Except.ok [("initialized", 1)]),
      setup := fun _ => Except.ok (), subscribeResult := Except.ok () }
  else if t = "bad_source" then
    { category := "stream_source",
      execute := fun _ _ env => (env, Except.ok []),
      setup := fun _ => Except.error "connect failed", subscribeResult := Except.ok () }
  else if t = "good_source" then
    { category := "stream_source",
      execute := fun _ _ env => (env, Except.ok []),
      setup := fun _ => Except.ok (), subscribeResult := Except.ok () }
  else if t = "proc_fail" then
    { category := "generic",
      execute := fun _ _ env => (env, Except.error "node boom"),
      setup := fun _ => Except.ok (), subscribeResult := Except.ok () }
  else
    { category := "generic",
      execute := fun inputs _ env => (env, Except.ok inputs),
      setup := fun _ => Except.ok (), subscribeResult := Except.ok () }

/-- The pipeline of the C1 witness: a single failing init node. -/
def c1Pipeline : Pipeline Nat := ⟨[⟨"i1", "bad_init", []⟩], []⟩

/-- The pipeline of the C4 counterexample: two sources, the second of
which fails to set up. -/
def c4Pipeline : Pipeline Nat :=
  ⟨[⟨"s1", "good_source", []⟩, ⟨"s2", "bad_source", []⟩], []⟩

/-- The pipeline of the C4 witness: an init node that executes
successfully, then two sources, the second of which fails to set up. -/
def c4InitPipeline : Pipeline Nat :=
  ⟨[⟨"i1", "good_init", []⟩, ⟨"s1", "good_source", []⟩, ⟨"s2", "bad_source", []⟩], []⟩

/-- The executor state of the C2 witness: one reachable processing node,
with an `on_tick_complete` callback that raises. -/
def c2State : ExecutorState Nat String :=
  { running := true, env := [],
    onTickComplete := some (fun env => (env, some "cb boom")),
    chainOrder := ["p1"], chainUpstream := [],
    sourceToProcessing := [("s1", ["p1"])], sourceReachable := [("s1", ["p1"])],
    nodesById := [("p1", ⟨"p1", "proc_ok", []⟩)],
    sourceIds := ["s1"], sources := ["s1"] }

/-! ## Theorems -/

/-- C9: after `register(k, e1, x1); unregister(k)`, `get(k)` is `none`;
`register` on an existing key silently overwrites; `unregister` on an
absent key returns `none` without error and leaves the map unchanged, so
unregistration is idempotent. -/
theorem publishRegistry_lifecycle {α β : Type} (m : PubMap α β) (k : String)
    (e1 : α) (x1 : β) (e2 : α) (x2 : β) :
    pubGet (pubUnregister (pubRegister m k e1 x1) k).2 k = none
    ∧ pubGet (pubRegister (pubRegister m k e1 x1) k e2 x2) k = some ⟨e2, x2⟩
    ∧ (m k = none → pubUnregister m k = (none, m))
    ∧ pubUnregister (pubUnregister m k).2 k = (none, (pubUnregister m k).2) := by
  refine ⟨?_, ?_, ?_, ?_⟩
  · simp [pubGet, pubUnregister, pubRegister]
  · simp [pubGet, pubRegister]
  · intro h
    have hm : Function.update m k none = m := by
      rw [← h]
      exact Function.update_eq_self k m
    simp [pubUnregister, h, hm]
  · simp [pubUnregister]

/-- Witness for C9 at a concrete instance: the absent-key hypothesis
holds for the empty registry. -/
theorem publishRegistry_lifecycle_witness :
    ((fun _ => none : PubMap Nat Nat) "p/q" = none)
    ∧ pubUnregister (fun _ => none : PubMap Nat Nat) "p/q" = (none, fun _ => none) :=
  ⟨rfl, (publishRegistry_lifecycle (fun _ => none) "p/q" 0 0 1 1).2.2.1 rfl⟩

/-- C10: a stored table value that is neither a Teide table nor a dict
(a list, string, `None`, ...) yields the empty page
`{rows: [], columns: [], total: 0}` without raising. -/
theorem queryTable_other_empty {ρ : Type} (teideAvail : Bool) (tag : String)
    (page pageSize : Nat) (sort filters : Option String) :
    queryTable (ρ := ρ) teideAvail (TableValue.other tag) page pageSize sort filters =
      Except.ok ⟨[], [], 0⟩ := by
  cases teideAvail <;> rfl

/-- C8: on a plain row-dict `{rows, columns, total}` the query returns the
slice `rows[page*page_size : page*page_size + page_size]`, the stored
columns and the stored total unchanged; `page=0, page_size=50` on a 3-row
table returns all 3 rows; `page_size` greater than `total` (with `total`
the true row count) returns exactly `total` rows. -/
theorem queryTable_rawDict_slices {ρ : Type} (ta : Bool) (rows : List (Row ρ))
    (columns : List String) (total : Int) (page pageSize : Nat)
    (s f : Option String) (_hps : 0 < pageSize) :
    (queryTable ta (TableValue.rawDict (some rows) (some columns) (some total))
        page pageSize s f =
      Except.ok ⟨(rows.drop (page * pageSize)).take pageSize, columns, total⟩)
    ∧ (rows.length = 3 → total = 3 →
        queryTable ta (TableValue.rawDict (some rows) (some columns) (some total))
            0 50 s f =
          Except.ok ⟨rows, columns, 3⟩)
    ∧ (total = (rows.length : Int) → (rows.length : Int) < (pageSize : Int) →
        ∃ p, queryTable ta (TableValue.rawDict (some rows) (some columns) (some total))
              0 pageSize s f = Except.ok p
          ∧ (p.rows.length : Int) = total ∧ p.total = total) := by
  have hslice : ∀ pg sz, pySlice rows (pg * sz) (pg * sz + sz) = (rows.drop (pg * sz)).take sz := by
    intro pg sz
    simp [pySlice]
  refine ⟨?_, ?_, ?_⟩
  · cases ta <;> simp [queryTable, hslice]
  · intro h3 ht
    have hrows : pySlice rows 0 50 = rows := by
      simp [pySlice]
      omega
    cases ta <;> simp [queryTable, hrows, ht]
  · intro ht hlt
    have hle : rows.length ≤ pageSize := by exact_mod_cast le_of_lt hlt
    have hrows : pySlice rows 0 pageSize = rows := by
      simp [pySlice]
      exact hle
    refine ⟨⟨rows, columns, total⟩, ?_, by simp [ht], rfl⟩
    cases ta <;> simp [queryTable, hrows]

/-- Witness for C8: a concrete 3-row table with `page=0, page_size=50`. -/
theorem queryTable_rawDict_slices_witness :
    (0 : Nat) < 50
    ∧ queryTable true
        (TableValue.rawDict (ρ := Nat)
          (some [[("x", 1)], [("x", 2)], [("x", 3)]]) (some ["x"]) (some 3))
        0 50 none none =
      Except.ok ⟨[[("x", 1)], [("x", 2)], [("x", 3)]], ["x"], 3⟩ :=
  ⟨by decide,
    (queryTable_rawDict_slices true [[("x", 1)], [("x", 2)], [("x", 3)]] ["x"] 3 0 50
      none none (by decide)).2.1 rfl rfl⟩

/-- One history append keeps the cap: length becomes `min (|h| + 1) 50`. -/
theorem appendHistory_length (h : List RunEntry) (e : RunEntry)
    (hlen : h.length ≤ maxHistory) :
    (appendHistory h e).length = min (h.length + 1) maxHistory := by
  unfold appendHistory maxHistory at *
  split
  · next hc =>
    simp only [List.length_drop, List.length_append, List.length_singleton] at *
    omega
  · next hc =>
    simp only [List.length_append, List.length_singleton] at *
    omega

/-- The trimmed history is a suffix of the untrimmed one. -/
theorem appendHistory_suffix (h : List RunEntry) (e : RunEntry) :
    List.IsSuffix (appendHistory h e) (h ++ [e]) := by
  unfold appendHistory
  split
  · exact List.drop_suffix _ _
  · exact List.suffix_refl _

/-- The appended entry stays the last element. -/
theorem appendHistory_getLast (h : List RunEntry) (e : RunEntry) :
    (appendHistory h e).getLast? = some e := by
  unfold appendHistory
  split
  · next hc =>
    have hk : (h ++ [e]).length - maxHistory ≤ h.length := by
      simp only [List.length_append, List.length_singleton]
      unfold maxHistory at *
      omega
    rw [List.drop_append_of_le_length hk, List.getLast?_concat]
  · exact List.getLast?_concat _

/-- Suffixes are preserved by appending on the right. -/
theorem isSuffix_append_right {α : Type} {l₁ l₂ : List α} (t : List α)
    (hs : List.IsSuffix l₁ l₂) : List.IsSuffix (l₁ ++ t) (l₂ ++ t) := by
  obtain ⟨u, rfl⟩ := hs
  exact ⟨u, by simp⟩

/-- Folding runs over a capped history keeps the cap. -/
theorem foldl_appendHistory_length (es : List RunEntry) :
    ∀ h : List RunEntry, h.length ≤ maxHistory →
      (es.foldl appendHistory h).length ≤ maxHistory := by
  induction es with
  | nil => intro h hl; simpa using hl
  | cons e es ih =>
    intro h hl
    have := appendHistory_length h e hl
    exact ih (appendHistory h e) (by omega)

/-- The folded history is a suffix of the full sequence of entries. -/
theorem foldl_appendHistory_suffix (es : List RunEntry) :
    ∀ h : List RunEntry, List.IsSuffix (es.foldl appendHistory h) (h ++ es) := by
  induction es with
  | nil => intro h; simp
  | cons e es ih =>
    intro h
    have h1 : List.IsSuffix (es.foldl appendHistory (appendHistory h e))
        (appendHistory h e ++ es) := ih (appendHistory h e)
    have h2 : List.IsSuffix (appendHistory h e ++ es) ((h ++ [e]) ++ es) :=
      isSuffix_append_right es (appendHistory_suffix h e)
    have h3 : (h ++ [e]) ++ es = h ++ e :: es := by simp
    simpa [h3] using h1.trans h2

/-- C6: the run history mechanics of `_run_pipeline_job`: each run —
including one whose load or execution failed — appends exactly one entry
(the length becomes `min (|h| + 1) 50`), the newest entry is last, the
result is a suffix of the untrimmed history (so the oldest entries are the
ones discarded), and any sequence of runs keeps the length at most 50. -/
theorem runHistory_ring_buffer (h : List RunEntry) (e : RunEntry)
    (es : List RunEntry) (hlen : h.length ≤ 50) :
    (appendHistory h e).length = min (h.length + 1) 50
    ∧ (appendHistory h e).getLast? = some e
    ∧ List.IsSuffix (appendHistory h e) (h ++ [e])
    ∧ (es.foldl appendHistory h).length ≤ 50
    ∧ List.IsSuffix (es.foldl appendHistory h) (h ++ es)
    ∧ (∀ ts loadOk res, (runPipelineJob h ts loadOk res).length = min (h.length + 1) 50)
    ∧ (∀ ts msg, (runPipelineJob h ts true (Except.error msg)).getLast? =
        some ⟨ts, "error", some msg⟩) := by
  refine ⟨appendHistory_length h e hlen, appendHistory_getLast h e,
    appendHistory_suffix h e, foldl_appendHistory_length es h hlen,
    foldl_appendHistory_suffix es h, ?_, ?_⟩
  · intro ts loadOk res
    exact appendHistory_length h (mkRunEntry ts loadOk res) hlen
  · intro ts msg
    exact appendHistory_getLast h ⟨ts, "error", some msg⟩

/-- Witness for C6 at a concrete history. -/
theorem runHistory_ring_buffer_witness :
    (([⟨"t0", "ok", none⟩] : List RunEntry).length ≤ 50)
    ∧ (appendHistory [⟨"t0", "ok", none⟩] ⟨"t1", "ok", none⟩).getLast? =
        some ⟨"t1", "ok", none⟩ :=
  ⟨by decide,
    (runHistory_ring_buffer [⟨"t0", "ok", none⟩] ⟨"t1", "ok", none⟩ [] (by decide)).2.1⟩

/-- A list of length five is literally a five-element list. -/
theorem list_length_eq_five {α : Type} (l : List α) (h : l.length = 5) :
    ∃ a b c d e, l = [a, b, c, d, e] := by
  match l, h with
  | [a, b, c, d, e], _ => exact ⟨a, b, c, d, e, rfl⟩

/-- C7: `_parse_cron` succeeds exactly when the whitespace-split expression
has 5 fields and raises a `ValueError` on any other field count; and
`sync_schedules` catches that error, skipping the node instead of letting
it propagate (the scan simply continues with the remaining nodes). -/
theorem parseCron_five_fields (expr tz : String) :
    ((∃ t, parseCron expr tz = Except.ok t) ↔ (pySplit (pyStrip expr)).length = 5)
    ∧ ((pySplit (pyStrip expr)).length ≠ 5 → ∃ msg, parseCron expr tz = Except.error msg)
    ∧ (∀ (jobs : List (String × String)) (key jid : String) (n : SchedNode)
        (rest : List SchedNode),
        (∀ t, parseCron (n.config.cronExpression.getD "") (n.config.timezone.getD "UTC") ≠
          Except.ok t) →
        syncLoop jobs key jid (n :: rest) = syncLoop jobs key jid rest) := by
  refine ⟨?_, ?_, ?_⟩
  · constructor
    · rintro ⟨t, ht⟩
      unfold parseCron at ht
      split at ht
      · next a b c d e heq => rw [heq]; rfl
      · exact absurd ht (by simp)
    · intro h5
      obtain ⟨a, b, c, d, e, heq⟩ := list_length_eq_five _ h5
      refine ⟨⟨a, b, c, d, e, tz⟩, ?_⟩
      unfold parseCron
      rw [heq]
  · intro h5
    unfold parseCron
    split
    · next a b c d e heq => rw [heq] at h5; simp at h5
    · exact ⟨_, rfl⟩
  · intro jobs key jid n rest hpe
    simp only [syncLoop]
    split
    · rfl
    · split
      · rfl
      · split
        · rfl
        · next t hok => exact absurd hok (hpe t)

/-- Witness for C7: a 4-field expression fails to parse and is skipped by
the scan. -/
theorem parseCron_five_fields_witness :
    ((pySplit (pyStrip "*/5 * * *")).length ≠ 5)
    ∧ (∃ msg, parseCron "*/5 * * *" "UTC" = Except.error msg) :=
  ⟨by decide, (parseCron_five_fields "*/5 * * *" "UTC").2.1 (by decide)⟩

/-- The scan registers for the first passing node and leaves the job map
untouched otherwise. -/
theorem syncLoop_spec (key jid : String) :
    ∀ (nodes : List SchedNode) (jobs : List (String × String)),
      syncLoop jobs key jid nodes =
        (if nodes.any schedNodePasses then pySet jobs key jid else jobs,
         if nodes.any schedNodePasses then [jid] else []) := by
  intro nodes
  induction nodes with
  | nil => intro jobs; rfl
  | cons n rest ih =>
    intro jobs
    unfold syncLoop
    by_cases h1 : n.nodeType = some "schedule_trigger"
    · simp only [h1, bne_self_eq_false, if_neg, Bool.false_eq_true, not_false_iff]
      by_cases h2 : cronTruthy n.config.cronExpression && n.config.enabled.getD true
      · have h2' : (!cronTruthy n.config.cronExpression || !n.config.enabled.getD true) = false := by
          revert h2
          cases cronTruthy n.config.cronExpression <;> cases n.config.enabled.getD true <;> simp
        rw [h2']
        simp only [Bool.false_eq_true, if_neg, not_false_iff]
        rcases hp : parseCron (n.config.cronExpression.getD "") (n.config.timezone.getD "UTC") with e | t
        · have hpass : schedNodePasses n = false := by
            unfold schedNodePasses
            rw [hp]
            simp
          rw [ih jobs]
          simp [List.any_cons, hpass]
        · have hpass : schedNodePasses n = true := by
            unfold schedNodePasses
            rw [hp, h1]
            revert h2
            cases cronTruthy n.config.cronExpression <;> cases n.config.enabled.getD true <;> simp
          simp [List.any_cons, hpass]
      · have h2' : (!cronTruthy n.config.cronExpression || !n.config.enabled.getD true) = true := by
          revert h2
          cases cronTruthy n.config.cronExpression <;> cases n.config.enabled.getD true <;> simp
        rw [h2']
        have hpass : schedNodePasses n = false := by
          unfold schedNodePasses
          revert h2
          cases cronTruthy n.config.cronExpression <;> cases n.config.enabled.getD true <;> simp
        rw [if_pos rfl, ih jobs]
        simp [List.any_cons, hpass]
    · have hb : (n.nodeType != some "schedule_trigger") = true := by
        simp [bne, h1]
      rw [if_pos hb, ih jobs]
      have hpass : schedNodePasses n = false := by
        unfold schedNodePasses
        simp [h1]
      simp [List.any_cons, hpass]

/-- Looking up the key just set. -/
theorem dictGet_pySet_same {α : Type} (d : List (String × α)) (k : String) (v : α) :
    dictGet (pySet d k v) k = some v := by
  induction d with
  | nil => simp [pySet, dictGet]
  | cons p rest ih =>
    by_cases h : p.1 = k
    · simp [pySet, dictGet, h]
    · simp [pySet, dictGet, h, ih]

/-- Setting one key does not change the others. -/
theorem dictGet_pySet_other {α : Type} (d : List (String × α)) (k k2 : String) (v : α)
    (hne : k2 ≠ k) : dictGet (pySet d k v) k2 = dictGet d k2 := by
  induction d with
  | nil => simp [pySet, dictGet, Ne.symm hne]
  | cons p rest ih =>
    by_cases h : p.1 = k
    · subst h
      simp [pySet, dictGet, Ne.symm hne]
    · by_cases h2 : p.1 = k2
      · simp [pySet, dictGet, h, h2, hne]
      · simp [pySet, dictGet, h, h2, ih]

/-- Looking up a deleted key. -/
theorem dictGet_pyDel_same {α : Type} (d : List (String × α)) (k : String) :
    dictGet (pyDel d k) k = none := by
  induction d with
  | nil => rfl
  | cons p rest ih =>
    by_cases h : p.1 = k
    · simpa [pyDel, List.filter_cons, h] using ih
    · have hb : (!(p.1 == k)) = true := by simp [h]
      simpa [pyDel, List.filter_cons, hb, dictGet, h] using ih

/-- Deleting one key does not change the others. -/
theorem dictGet_pyDel_other {α : Type} (d : List (String × α)) (k k2 : String)
    (hne : k2 ≠ k) : dictGet (pyDel d k) k2 = dictGet d k2 := by
  induction d with
  | nil => rfl
  | cons p rest ih =>
    by_cases h : p.1 = k
    · subst h
      simpa [pyDel, List.filter_cons, dictGet, Ne.symm hne] using ih
    · have hb : (!(p.1 == k)) = true := by simp [h]
      by_cases h2 : p.1 = k2
      · simp [pyDel, List.filter_cons, hb, dictGet, h2, hne]
      · simpa [pyDel, List.filter_cons, hb, dictGet, h2] using ih

/-- C5 (counterexample): a pipeline whose first `schedule_trigger` node is
disabled but whose second is enabled still registers a job, contradicting
the claim that a job is registered exactly when the *first*
`schedule_trigger` node is enabled with a parseable cron. -/
theorem syncSchedules_first_node_counterexample :
    ((⟨some "schedule_trigger", ⟨some "* * * * *", some false, none⟩⟩ : SchedNode).config.enabled.getD true = false)
    ∧ dictGet
        (syncSchedules true [] "p/w"
          [⟨some "schedule_trigger", ⟨some "* * * * *", some false, none⟩⟩,
           ⟨some "schedule_trigger", ⟨some "* * * * *", none, none⟩⟩]
          "job-1").1 "p/w" = some "job-1" := by
  constructor
  · rfl
  · rfl

/-- C5 (amended): `sync_schedules` first removes any existing job for the
key; it then registers a job exactly when *some* `schedule_trigger` node
has a truthy cron expression, truthy `enabled` (default true) and a
parseable cron — the first such node wins; at most one `add_schedule`
call is made; all other keys are untouched; in particular with no
passing schedule node, no job exists for the key afterwards. -/
theorem syncSchedules_amended (jobs : List (String × String)) (key : String)
    (nodes : List SchedNode) (jid : String) :
    (∀ k, k ≠ key →
      dictGet (syncSchedules true jobs key nodes jid).1 k = dictGet jobs k)
    ∧ (syncSchedules true jobs key nodes jid).2.length ≤ 1
    ∧ dictGet (syncSchedules true jobs key nodes jid).1 key =
        (if nodes.any schedNodePasses then some jid else none) := by
  have hs : syncSchedules true jobs key nodes jid =
      (if nodes.any schedNodePasses then pySet (pyDel jobs key) key jid else pyDel jobs key,
       if nodes.any schedNodePasses then [jid] else []) := by
    unfold syncSchedules
    rw [syncLoop_spec key jid nodes (pyDel jobs key)]
    simp
  refine ⟨?_, ?_, ?_⟩
  · intro k hk
    rw [hs]
    by_cases hp : nodes.any schedNodePasses
    · simp only [hp, if_pos]
      rw [dictGet_pySet_other _ _ _ _ hk, dictGet_pyDel_other _ _ _ hk]
    · simp only [hp, if_neg, not_false_iff]
      exact dictGet_pyDel_other _ _ _ hk
  · rw [hs]
    by_cases hp : nodes.any schedNodePasses <;> simp [hp]
  · rw [hs]
    by_cases hp : nodes.any schedNodePasses
    · simp only [hp, if_pos]
      exact dictGet_pySet_same _ _ _
    · simp only [hp, if_neg, not_false_iff]
      exact dictGet_pyDel_same _ _

/-- Witness for C5 at a concrete pipeline with one enabled schedule node. -/
theorem syncSchedules_amended_witness :
    ("other" ≠ "p/w")
    ∧ dictGet
        (syncSchedules true [("other", "j0")] "p/w"
          [⟨some "schedule_trigger", ⟨some "*/5 * * * *", none, none⟩⟩] "j1").1
        "other" = dictGet [("other", "j0")] "other" :=
  ⟨by decide,
    (syncSchedules_amended [("other", "j0")] "p/w"
      [⟨some "schedule_trigger", ⟨some "*/5 * * * *", none, none⟩⟩] "j1").1
      "other" (by decide)⟩

/-- Topological sort of the empty subset always succeeds with an empty
order and an empty upstream map. -/
theorem topoSort_nil (edges : List Edge) : topoSort [] edges = Except.ok ([], []) := by
  simp [topoSort, subsetEdges, kahnRun, kahnLoop, upstreamAList]

/-- C1: when an init node's `execute` raises during `start`, `start`
invokes `on_init_error` with the failing node's id and the exception,
marks the executor stopped, returns normally (nothing propagates), and
subscribes no stream sources. -/
theorem start_init_failure {V ε : Type} (reg : String → NodeClass V ε) (p : Pipeline V)
    (env : List (String × V))
    (onTick : Option (List (String × V) → (List (String × V) × Option ε)))
    (st : ExecutorState V ε)
    (hrun : st.running = false) (hsrc : st.sources = [])
    (iorder : List String) (iup : List (String × List String))
    (hts : topoSort (initIdsOf reg p) p.edges = Except.ok (iorder, iup))
    (env2 : List (String × V)) (nid : String) (e : ε)
    (hfail : runInit reg (nodesByIdOf p) iup iorder env [] = (env2, Except.error (nid, e))) :
    (start reg p env onTick true st).2.raised = none
    ∧ (start reg p env onTick true st).2.initErrorCalls = [(nid, e)]
    ∧ (start reg p env onTick true st).1.running = false
    ∧ (start reg p env onTick true st).1.sources = [] := by
  have hne : (initIdsOf reg p).isEmpty = false := by
    rcases h : (initIdsOf reg p).isEmpty with _ | _
    · rfl
    · exfalso
      have h0 : initIdsOf reg p = [] := List.isEmpty_iff.mp h
      rw [h0, topoSort_nil] at hts
      obtain ⟨h1, h2⟩ := Prod.mk.injEq .. ▸ (Except.ok.inj hts)
      rw [← h1] at hfail
      simp [runInit] at hfail
  unfold start
  rw [hrun]
  simp only [Bool.false_eq_true, if_false, hne, hts, hfail]
  simp [hsrc]

/-- Witness for C1: on a concrete pipeline whose only init node raises,
`start` records the `on_init_error` call and stays stopped. -/
theorem start_init_failure_witness :
    ((initExecutorState Nat String).running = false)
    ∧ ((initExecutorState Nat String).sources = [])
    ∧ (topoSort (initIdsOf demoReg c1Pipeline) c1Pipeline.edges = Except.ok (["i1"], []))
    ∧ (runInit demoReg (nodesByIdOf c1Pipeline) [] ["i1"] [] [] =
        ([], Except.error ("i1", "init boom")))
    ∧ (start demoReg c1Pipeline [] none true (initExecutorState Nat String)).2.raised = none
    ∧ (start demoReg c1Pipeline [] none true (initExecutorState Nat String)).2.initErrorCalls =
        [("i1", "init boom")] := by
  have h := start_init_failure demoReg c1Pipeline [] none (initExecutorState Nat String)
    rfl rfl ["i1"] [] (by rfl) [] "i1" "init boom" (by rfl)
  exact ⟨rfl, rfl, by rfl, by rfl, h.1, h.2.1⟩

/-- Sources whose `setup` and `subscribe` succeed are appended to
`self._sources` and the subscription loop moves on. -/
theorem subscribeSources_append_ok {V ε : Type} (reg : String → NodeClass V ε)
    (nodesById : List (String × NodeDef V)) :
    ∀ (pre : List String) (st : ExecutorState V ε) (rest : List String),
      (∀ s2 ∈ pre,
        (reg (getNodeD nodesById s2).type).setup (getNodeD nodesById s2).config =
          Except.ok ()
        ∧ (reg (getNodeD nodesById s2).type).subscribeResult = Except.ok ()) →
      subscribeSources reg nodesById st (pre ++ rest) =
        subscribeSources reg nodesById { st with sources := st.sources ++ pre } rest := by
  intro pre
  induction pre with
  | nil => intro st rest _; simp
  | cons s pre ih =>
    intro st rest hok
    obtain ⟨hsetup, hsub⟩ := hok s (List.mem_cons_self s pre)
    have hstep : subscribeSources reg nodesById st ((s :: pre) ++ rest) =
        subscribeSources reg nodesById { st with sources := st.sources ++ [s] }
          (pre ++ rest) := by
      show subscribeSources reg nodesById st (s :: (pre ++ rest)) = _
      simp only [subscribeSources, hsetup, hsub]
    rw [hstep, ih _ rest (fun s2 hs2 => hok s2 (List.mem_cons_of_mem s hs2))]
    simp [List.append_assoc]

/-- A source whose `setup` (or, after a successful `setup`, whose
`subscribe`) raises makes the loop re-raise immediately, leaving the
executor state as it was. -/
theorem subscribeSources_fail {V ε : Type} (reg : String → NodeClass V ε)
    (nodesById : List (String × NodeDef V)) (s : String) (rest : List String)
    (st : ExecutorState V ε) (e : ε)
    (hfail :
      (reg (getNodeD nodesById s).type).setup (getNodeD nodesById s).config =
        Except.error e
      ∨ ((reg (getNodeD nodesById s).type).setup (getNodeD nodesById s).config =
          Except.ok ()
        ∧ (reg (getNodeD nodesById s).type).subscribeResult = Except.error e)) :
    subscribeSources reg nodesById st (s :: rest) =
      (st, ⟨some (StartExc.sourceExc e), []⟩) := by
  rcases hfail with hsetup | ⟨hsetup, hsub⟩
  · simp only [subscribeSources, hsetup]
  · simp only [subscribeSources, hsetup, hsub]

/-- C4 (amended): in any pipeline whose init phase completes without
failure (no init nodes, or the init loop runs through successfully),
when a stream source's `setup` or `subscribe` raises during `start`, the
exception propagates out of `start` — `start` raises instead of
returning, `on_init_error` is not invoked, the executor remains marked
running, and exactly the sources subscribed before the failing one
remain subscribed. -/
theorem start_source_failure_amended {V ε : Type} (reg : String → NodeClass V ε)
    (p : Pipeline V) (env : List (String × V))
    (onTick : Option (List (String × V) → (List (String × V) × Option ε)))
    (hasIE : Bool) (st : ExecutorState V ε)
    (hrun : st.running = false) (hsrc : st.sources = [])
    (hinitok : initIdsOf reg p = []
      ∨ ∃ iorder iup env2 res,
          topoSort (initIdsOf reg p) p.edges = Except.ok (iorder, iup)
          ∧ runInit reg (nodesByIdOf p) iup iorder env [] = (env2, Except.ok res))
    (chain : List String) (chup : List (String × List String))
    (hproc : topoSort (processingIdsOf reg p) p.edges = Except.ok (chain, chup))
    (pre : List String) (s : String) (rest : List String)
    (hsplit : sourceIdsOf reg p = pre ++ s :: rest)
    (hpre : ∀ s2 ∈ pre,
      (reg (getNodeD (nodesByIdOf p) s2).type).setup (getNodeD (nodesByIdOf p) s2).config =
        Except.ok ()
      ∧ (reg (getNodeD (nodesByIdOf p) s2).type).subscribeResult = Except.ok ())
    (e : ε)
    (hfail :
      (reg (getNodeD (nodesByIdOf p) s).type).setup (getNodeD (nodesByIdOf p) s).config =
        Except.error e
      ∨ ((reg (getNodeD (nodesByIdOf p) s).type).setup (getNodeD (nodesByIdOf p) s).config =
          Except.ok ()
        ∧ (reg (getNodeD (nodesByIdOf p) s).type).subscribeResult = Except.error e)) :
    (start reg p env onTick hasIE st).2.raised = some (StartExc.sourceExc e)
    ∧ (start reg p env onTick hasIE st).2.initErrorCalls = []
    ∧ (start reg p env onTick hasIE st).1.running = true
    ∧ (start reg p env onTick hasIE st).1.sources = pre := by
  unfold start
  rw [hrun]
  rcases hie : (initIdsOf reg p).isEmpty with _ | _
  · -- init nodes present: the init phase must have completed successfully
    rcases hinitok with h0 | ⟨iorder, iup, env2, res, hts, hok⟩
    · rw [h0] at hie
      exact Bool.noConfusion hie
    · simp only [Bool.false_eq_true, if_false, hie, hts, hok, hproc, hsplit]
      rw [subscribeSources_append_ok reg (nodesByIdOf p) pre _ (s :: rest) hpre]
      rw [subscribeSources_fail reg (nodesByIdOf p) s rest _ e hfail]
      simp [hsrc]
  · -- no init nodes
    simp only [Bool.false_eq_true, if_false, hie, if_true, hproc, hsplit]
    rw [subscribeSources_append_ok reg (nodesByIdOf p) pre _ (s :: rest) hpre]
    rw [subscribeSources_fail reg (nodesByIdOf p) s rest _ e hfail]
    simp [hsrc]

/-- C4 (counterexample): with a source whose `setup` raises, `start` does
not return normally and the executor does not remain stopped — the claim
that such a failure is treated like an init failure is false. -/
theorem start_source_failure_counterexample :
    ((start demoReg c4Pipeline [] none true (initExecutorState Nat String)).2.raised ≠ none)
    ∧ (start demoReg c4Pipeline [] none true (initExecutorState Nat String)).1.running = true
    ∧ (start demoReg c4Pipeline [] none true (initExecutorState Nat String)).1.sources =
        ["s1"] := by
  refine ⟨?_, rfl, rfl⟩
  intro h
  rw [show (start demoReg c4Pipeline [] none true (initExecutorState Nat String)).2.raised =
    some (StartExc.sourceExc "connect failed") from rfl] at h
  exact Option.noConfusion h

/-- Witness for C4's amended theorem: a concrete pipeline whose init node
executes successfully before the second source's `setup` raises. -/
theorem start_source_failure_amended_witness :
    ((initExecutorState Nat String).running = false)
    ∧ (topoSort (initIdsOf demoReg c4InitPipeline) c4InitPipeline.edges =
        Except.ok (["i1"], []))
    ∧ (runInit demoReg (nodesByIdOf c4InitPipeline) [] ["i1"] [] [] =
        ([("ready", 1)], Except.ok [("i1", [("initialized", 1)])]))
    ∧ (sourceIdsOf demoReg c4InitPipeline = ["s1"] ++ "s2" :: [])
    ∧ (start demoReg c4InitPipeline [] none true (initExecutorState Nat String)).2.raised =
        some (StartExc.sourceExc "connect failed")
    ∧ (start demoReg c4InitPipeline [] none true
        (initExecutorState Nat String)).2.initErrorCalls = []
    ∧ (start demoReg c4InitPipeline [] none true (initExecutorState Nat String)).1.running =
        true
    ∧ (start demoReg c4InitPipeline [] none true (initExecutorState Nat String)).1.sources =
        ["s1"] := by
  have h := start_source_failure_amended demoReg c4InitPipeline [] none true
    (initExecutorState Nat String) rfl rfl
    (Or.inr ⟨["i1"], [], [("ready", 1)], [("i1", [("initialized", 1)])], by rfl, by rfl⟩)
    [] [] (by rfl)
    ["s1"] "s2" [] (by rfl)
    (by
      intro s2 hs2
      simp only [List.mem_singleton] at hs2
      subst hs2
      exact ⟨rfl, rfl⟩)
    "connect failed" (Or.inl rfl)
  exact ⟨rfl, by rfl, by rfl, rfl, h.1, h.2.1, h.2.2.1, h.2.2.2⟩

/-- When the chain loop of a tick fails, its event list is a run of
successful node executions ended by the single failing node — the loop
breaks, so no later node of that tick runs. -/
theorem runChain_fail_events {V ε : Type} (reg : String → NodeClass V ε)
    (nodesById : List (String × NodeDef V)) (chup : List (String × List String))
    (direct reach : List String) (data : List (String × V)) :
    ∀ (chain : List String) (env : List (String × V))
      (outputs : List (String × List (String × V))),
      (runChain reg nodesById chup direct reach data chain env outputs).2.2 = false →
      ∃ execs nid e,
        (runChain reg nodesById chup direct reach data chain env outputs).2.1 =
          execs ++ [TickEvent.nodeFailed nid e]
        ∧ ∀ ev ∈ execs, ∃ m, ev = TickEvent.nodeExecuted m := by
  intro chain
  induction chain with
  | nil => intro env outputs h; simp [runChain] at h
  | cons nid rest ih =>
    intro env outputs h
    by_cases hr : reach.contains nid = true
    · revert h
      simp only [runChain, hr, if_true]
      split
      · next output heq =>
        dsimp only
        intro h
        obtain ⟨execs, n0, e0, heq2, hall⟩ := ih _ _ h
        refine ⟨TickEvent.nodeExecuted nid :: execs, n0, e0,
          by rw [heq2, List.cons_append], ?_⟩
        rintro ev hev
        rcases List.mem_cons.mp hev with hv | hm
        · exact ⟨nid, hv⟩
        · exact hall ev hm
      · next e heq =>
        intro _
        exact ⟨[], nid, e, rfl, by simp⟩
    · have hr' : reach.contains nid = false := by
        revert hr
        cases reach.contains nid <;> simp
      revert h
      simp only [runChain, hr', Bool.false_eq_true, if_false]
      exact ih env outputs

/-- A running executor always enters the tick: the trace of `_on_message`
begins with the lock acquisition. -/
theorem onMessage_trace_head {V ε : Type} (reg : String → NodeClass V ε)
    (st : ExecutorState V ε) (sid : String) (data : List (String × V))
    (hrun : st.running = true) :
    (onMessage reg st sid data).2.head? = some TickEvent.lockAcquire := by
  unfold onMessage
  simp only [hrun]
  rw [if_neg (by simp)]
  split
  · split <;> rfl
  · rfl

/-- `_on_message` never changes `self._running` (and leaves the prepared
chain intact). -/
theorem onMessage_preserves_running {V ε : Type} (reg : String → NodeClass V ε)
    (st : ExecutorState V ε) (sid : String) (data : List (String × V)) :
    (onMessage reg st sid data).1.running = st.running
    ∧ (onMessage reg st sid data).1.chainOrder = st.chainOrder
    ∧ (onMessage reg st sid data).1.onTickComplete = st.onTickComplete := by
  simp only [onMessage]
  by_cases h : st.running = false
  · rw [if_pos h]
    exact ⟨rfl, rfl, rfl⟩
  · rw [if_neg h]
    by_cases h2 : (tickRun reg st sid data).2.2 = true
    · rw [if_pos h2]
      rcases hcb : st.onTickComplete with _ | cb <;> simp [hcb]
    · rw [if_neg h2]
      exact ⟨rfl, rfl, rfl⟩

/-- C2: per-tick semantics of `_on_message`.  If a processing node raises,
the tick aborts — the event list is a run of successful executions ended
by the failing node, and `on_tick_complete` is not invoked.  If the tick
succeeds and a callback is installed, it is invoked after the lock is
released, and an exception it raises is swallowed: the handler still
returns, the executor keeps running, and a later message is processed
(its trace again enters the tick). -/
theorem onMessage_semantics {V ε : Type} (reg : String → NodeClass V ε)
    (st : ExecutorState V ε) (sid : String) (data : List (String × V))
    (hrun : st.running = true) :
    ((tickRun reg st sid data).2.2 = false →
      TickEvent.tickCompleteCalled ∉ (onMessage reg st sid data).2
      ∧ ∃ execs nid e,
          (tickRun reg st sid data).2.1 = execs ++ [TickEvent.nodeFailed nid e]
          ∧ ∀ ev ∈ execs, ∃ m, ev = TickEvent.nodeExecuted m)
    ∧ (∀ cb, (tickRun reg st sid data).2.2 = true → st.onTickComplete = some cb →
        (onMessage reg st sid data).2 =
          TickEvent.lockAcquire :: (tickRun reg st sid data).2.1 ++
            [TickEvent.lockRelease, TickEvent.tickCompleteCalled] ++
            (match (cb (tickRun reg st sid data).1).2 with
             | some e2 => [TickEvent.tickCompleteRaised e2]
             | none => []))
    ∧ (onMessage reg st sid data).1.running = true
    ∧ (∀ sid2 data2,
        (onMessage reg (onMessage reg st sid data).1 sid2 data2).2.head? =
          some TickEvent.lockAcquire) := by
  have hrun2 : (onMessage reg st sid data).1.running = true := by
    rw [(onMessage_preserves_running reg st sid data).1]
    exact hrun
  refine ⟨?_, ?_, hrun2, ?_⟩
  · intro hko
    obtain ⟨execs, nid, e, heq, hall⟩ := runChain_fail_events reg st.nodesById
      st.chainUpstream (getList st.sourceToProcessing sid)
      (getList st.sourceReachable sid) data st.chainOrder st.env [(sid, data)] hko
    refine ⟨?_, execs, nid, e, heq, hall⟩
    have hm : (onMessage reg st sid data).2 =
        TickEvent.lockAcquire :: (tickRun reg st sid data).2.1 ++
          [TickEvent.lockRelease] := by
      unfold onMessage
      simp only [hrun]
      simp only [tickRun] at hko ⊢
      simp only [hko]
      rfl
    rw [hm]
    intro hmem
    rcases List.mem_cons.mp hmem with hc | hmem2
    · exact TickEvent.noConfusion hc
    · rcases List.mem_append.mp hmem2 with hin | hin
      · rw [show (tickRun reg st sid data).2.1 = execs ++ [TickEvent.nodeFailed nid e]
          from heq] at hin
        rcases List.mem_append.mp hin with hin2 | hin2
        · obtain ⟨m, hm2⟩ := hall _ hin2
          exact TickEvent.noConfusion hm2
        · rcases List.mem_singleton.mp hin2 with h
          exact TickEvent.noConfusion h
      · rcases List.mem_singleton.mp hin with h
        exact TickEvent.noConfusion h
  · intro cb hok hcb
    unfold onMessage
    simp only [hrun]
    simp only [tickRun] at hok ⊢
    simp only [hok, hcb]
    simp [List.append_assoc]
  · intro sid2 data2
    exact onMessage_trace_head reg _ sid2 data2 hrun2

/-- Witness for C2 at a concrete tick: the callback raises, the exception
is swallowed, the executor keeps running, and the recorded trace shows the
callback invoked after the lock release. -/
theorem onMessage_semantics_witness :
    (c2State.running = true)
    ∧ (onMessage demoReg c2State "s1" [("tick", 1)]).1.running = true
    ∧ (onMessage demoReg c2State "s1" [("tick", 1)]).2 =
        [TickEvent.lockAcquire, TickEvent.nodeExecuted "p1", TickEvent.lockRelease,
         TickEvent.tickCompleteCalled, TickEvent.tickCompleteRaised "cb boom"] := by
  refine ⟨rfl, (onMessage_semantics demoReg c2State "s1" [("tick", 1)] rfl).2.2.1, rfl⟩

/-! ## Correctness of `_topo_sort` (Kahn's algorithm)

Ghost quantities for the loop invariant: `cntE E order t` counts the
edges into `t` whose source has not yet been emitted, and `kEdges E n t`
counts the parallel edges from `n` to `t`. -/

/-- The `downstream` list of `n` contains `t` once per `n → t` edge. -/
theorem count_targetsOf (E : List Edge) (n t : String) :
    (targetsOf E n).count t = kEdges E n t := by
  induction E with
  | nil => rfl
  | cons e E ih =>
    by_cases hs : e.source = n
    · by_cases ht : e.target = t
      · simp [targetsOf, kEdges, List.filterMap_cons, List.filter_cons, hs, ht,
          List.count_cons] at ih ⊢
        omega
      · simp [targetsOf, kEdges, List.filterMap_cons, List.filter_cons, hs, ht,
          List.count_cons] at ih ⊢
        exact ih
    · simp [targetsOf, kEdges, List.filterMap_cons, List.filter_cons, hs] at ih ⊢
      exact ih

/-- Splitting a filter count over a disjoint cover of its predicate. -/
theorem filter_length_add {α : Type} (p q r : α → Bool) (l : List α)
    (h : ∀ x ∈ l, (p x = true ↔ (q x = true ∨ r x = true))
      ∧ ¬(q x = true ∧ r x = true)) :
    (l.filter p).length = (l.filter q).length + (l.filter r).length := by
  induction l with
  | nil => rfl
  | cons a l ih =>
    have ha := h a (List.mem_cons_self a l)
    have ih2 := ih (fun x hx => h x (List.mem_cons_of_mem _ hx))
    simp only [List.filter_cons]
    cases hp : p a <;> cases hq : q a <;> cases hr : r a <;>
      simp [hp, hq, hr] at ha ⊢ <;> omega

/-- Emitting `n` removes exactly the `n → t` edges from the pending count. -/
theorem cntE_append (E : List Edge) (order : List String) (n t : String)
    (hn : n ∉ order) :
    cntE E order t = cntE E (order ++ [n]) t + kEdges E n t := by
  unfold cntE kEdges
  apply filter_length_add
  intro e _
  have hp : ((e.target == t && !(order.contains e.source)) = true) ↔
      (e.target = t ∧ e.source ∉ order) := by
    simp
  have hq : ((e.target == t && !((order ++ [n]).contains e.source)) = true) ↔
      (e.target = t ∧ ¬(e.source ∈ order ∨ e.source = n)) := by
    simp
  have hr : ((e.source == n && e.target == t) = true) ↔
      (e.source = n ∧ e.target = t) := by
    simp
  rw [hp, hq, hr]
  constructor
  · constructor
    · rintro ⟨ht, hs⟩
      by_cases hsn : e.source = n
      · exact Or.inr ⟨hsn, ht⟩
      · exact Or.inl ⟨ht, fun hor => hor.elim hs hsn⟩
    · rintro (⟨ht, hs⟩ | ⟨hsn, ht⟩)
      · exact ⟨ht, fun hmem => hs (Or.inl hmem)⟩
      · exact ⟨ht, hsn ▸ hn⟩
  · rintro ⟨⟨_, hs⟩, hsn, _⟩
    exact hs (Or.inr hsn)

/-- Characterization of the decrement loop: the in-degree map drops by
the multiplicity in `ts`, and the freshly enqueued nodes are exactly
those whose current in-degree is positive but at most that multiplicity
(each enqueued once, appended at the end of the queue). -/
theorem stepTargets_spec :
    ∀ (ts : List String) (inDeg : String → Int) (queue : List String),
      (stepTargets inDeg queue ts).1 = (fun x => inDeg x - ((ts.count x : Nat) : Int))
      ∧ ∃ new, (stepTargets inDeg queue ts).2 = queue ++ new ∧ new.Nodup
          ∧ (∀ t, t ∈ new ↔ (1 ≤ inDeg t ∧ inDeg t ≤ ((ts.count t : Nat) : Int))) := by
  intro ts
  induction ts with
  | nil =>
    intro inDeg queue
    refine ⟨by funext x; simp [stepTargets], [], by simp [stepTargets], List.nodup_nil, ?_⟩
    intro t
    simp only [List.not_mem_nil, List.count_nil, Nat.cast_zero, false_iff]
    rintro ⟨h1, h2⟩
    omega
  | cons t0 ts ih =>
    intro inDeg queue
    have hstep : stepTargets inDeg queue (t0 :: ts) =
        stepTargets (Function.update inDeg t0 (inDeg t0 - 1))
          (if inDeg t0 - 1 = 0 then queue ++ [t0] else queue) ts := rfl
    obtain ⟨ihf, new2, ihq, ihnd, ihmem⟩ :=
      ih (Function.update inDeg t0 (inDeg t0 - 1))
        (if inDeg t0 - 1 = 0 then queue ++ [t0] else queue)
    constructor
    · rw [hstep, ihf]
      funext x
      by_cases hx : x = t0
      · subst hx
        simp [Function.update_same, List.count_cons]
        omega
      · simp [Function.update_noteq hx, List.count_cons, hx]
    · by_cases hd : inDeg t0 - 1 = 0
      · refine ⟨t0 :: new2, ?_, ?_, ?_⟩
        · rw [hstep, ihq, if_pos hd]
          simp
        · refine List.Nodup.cons ?_ ihnd
          intro hmem
          have := (ihmem t0).mp hmem
          rw [Function.update_same] at this
          omega
        · intro t
          by_cases hx : t = t0
          · rw [hx]
            simp only [List.mem_cons, true_or, true_iff]
            constructor
            · omega
            · have : (1 : Int) ≤ ((t0 :: ts).count t0 : Nat) := by
                have hm : t0 ∈ t0 :: ts := List.mem_cons_self t0 ts
                have hc := List.count_pos_iff.mpr hm
                exact_mod_cast hc
              omega
          · rw [List.mem_cons]
            simp only [hx, false_or]
            rw [ihmem t]
            rw [Function.update_noteq hx]
            have : (t0 :: ts).count t = ts.count t := by
              simp [List.count_cons, hx]
            rw [this]
      · refine ⟨new2, ?_, ihnd, ?_⟩
        · rw [hstep, ihq, if_neg hd]
        · intro t
          rw [ihmem t]
          by_cases hx : t = t0
          · rw [hx, Function.update_same]
            have : (t0 :: ts).count t0 = ts.count t0 + 1 := by
              simp [List.count_cons]
            rw [this]
            push_cast
            omega
          · rw [Function.update_noteq hx]
            have : (t0 :: ts).count t = ts.count t := by
              simp [List.count_cons, hx]
            rw [this]

/-- When nothing is pending into `t`, every edge into `t` comes from an
emitted node. -/
theorem cntE_zero_source_mem (E : List Edge) (order : List String) (t : String)
    (h : cntE E order t = 0) :
    ∀ e ∈ E, e.target = t → e.source ∈ order := by
  intro e he ht
  by_contra hs
  have hmem : e ∈ E.filter (fun e => e.target == t && !(order.contains e.source)) := by
    rw [List.mem_filter]
    refine ⟨he, ?_⟩
    simp [ht, hs]
  have hpos := List.length_pos_of_mem hmem
  unfold cntE at h
  omega

/-- A positive pending count provides a pending edge. -/
theorem cntE_pos_edge (E : List Edge) (order : List String) (t : String)
    (h : 0 < cntE E order t) :
    ∃ e ∈ E, e.target = t ∧ e.source ∉ order := by
  unfold cntE at h
  obtain ⟨e, hmem⟩ := List.exists_mem_of_length_pos h
  rw [List.mem_filter] at hmem
  obtain ⟨he, hb⟩ := hmem
  simp only [Bool.and_eq_true, beq_iff_eq, Bool.not_eq_eq_eq_not, Bool.not_true] at hb
  refine ⟨e, he, hb.1, ?_⟩
  intro hmem2
  have : order.contains e.source = true := by simpa using hmem2
  rw [this] at hb
  exact Bool.noConfusion hb.2

/-- A positive multiplicity provides an `n → t` edge. -/
theorem kEdges_pos_edge (E : List Edge) (n t : String) (h : 0 < kEdges E n t) :
    ∃ e ∈ E, e.source = n ∧ e.target = t := by
  unfold kEdges at h
  obtain ⟨e, hmem⟩ := List.exists_mem_of_length_pos h
  rw [List.mem_filter] at hmem
  obtain ⟨he, hb⟩ := hmem
  simp only [Bool.and_eq_true, beq_iff_eq] at hb
  exact ⟨e, he, hb.1, hb.2⟩

/-- With an empty order, the pending count is the raw in-degree computed
by `_topo_sort`. -/
theorem cntE_nil (E : List Edge) (t : String) :
    cntE E [] t = (E.filter (fun e => e.target == t)).length := by
  unfold cntE
  congr 1
  apply List.filter_congr
  intro e _
  simp

/-- A nodup list included in `V` is no longer than `V`. -/
theorem nodup_subset_length {α : Type} [DecidableEq α] (l V : List α) (hnd : l.Nodup)
    (hsub : ∀ x ∈ l, x ∈ V) : l.length ≤ V.length :=
  (List.subperm_of_subset hnd hsub).length_le

/-- The relative order of present elements is stable under appending. -/
theorem idxLt_append (l : List String) (n a b : String) (h : idxLt l a b) :
    idxLt (l ++ [n]) a b := by
  obtain ⟨ha, hb, hlt⟩ := h
  refine ⟨List.mem_append_left _ ha, List.mem_append_left _ hb, ?_⟩
  rw [List.indexOf_append_of_mem ha, List.indexOf_append_of_mem hb]
  exact hlt

/-- A fresh element appended at the end comes after every present one. -/
theorem idxLt_last (l : List String) (n a : String) (ha : a ∈ l) (hn : n ∉ l) :
    idxLt (l ++ [n]) a n := by
  refine ⟨List.mem_append_left _ ha,
    List.mem_append_right _ (List.mem_singleton_self n), ?_⟩
  rw [List.indexOf_append_of_mem ha, List.indexOf_append_of_not_mem hn]
  have h1 : List.indexOf a l < l.length := List.indexOf_lt_length.mpr ha
  omega

/-- One iteration of the `while queue:` loop preserves the invariant:
pop `n`, append it to the order, decrement its downstream targets and
enqueue those that reach zero. -/
theorem kahnInv_step (V : List String) (E : List Edge)
    (hE : ∀ e ∈ E, e.source ∈ V ∧ e.target ∈ V)
    (inDeg : String → Int) (n : String) (rest order : List String)
    (hinv : KahnInv V E inDeg (n :: rest) order) :
    KahnInv V E (stepTargets inDeg rest (targetsOf E n)).1
      (stepTargets inDeg rest (targetsOf E n)).2 (order ++ [n]) := by
  obtain ⟨hfst, new, hq, hndnew, hmem⟩ := stepTargets_spec (targetsOf E n) inDeg rest
  have hnodup := hinv.nodup
  have hsplit := List.nodup_append.mp hnodup
  have hnO : n ∉ order := fun h => hsplit.2.2 h (List.mem_cons_self n rest)
  have hnR : n ∉ rest := (List.nodup_cons.mp hsplit.2.1).1
  have horder2 : ∀ t, cntE E order t = cntE E (order ++ [n]) t + kEdges E n t :=
    fun t => cntE_append E order n t hnO
  have hdeg2 : ∀ t, (stepTargets inDeg rest (targetsOf E n)).1 t =
      (cntE E (order ++ [n]) t : Int) := by
    intro t
    rw [hfst]
    dsimp only
    rw [hinv.deg t, count_targetsOf]
    have h := horder2 t
    omega
  have hmem2 : ∀ t, t ∈ new ↔ (cntE E (order ++ [n]) t = 0 ∧ 1 ≤ cntE E order t) := by
    intro t
    rw [hmem t, hinv.deg t, count_targetsOf]
    have h := horder2 t
    omega
  have hnewV : ∀ t ∈ new, t ∈ V := by
    intro t ht
    obtain ⟨h1, h2⟩ := (hmem2 t).mp ht
    have hk : 0 < kEdges E n t := by
      have h := horder2 t
      omega
    obtain ⟨e, he, hs, htg⟩ := kEdges_pos_edge E n t hk
    have := (hE e he).2
    rwa [htg] at this
  have hnewFresh : ∀ t ∈ new, t ∉ order ++ n :: rest := by
    intro t ht hmem3
    obtain ⟨h1, h2⟩ := (hmem2 t).mp ht
    have := hinv.seenZero t hmem3
    omega
  refine ⟨?_, ?_, hdeg2, ?_, ?_, ?_⟩
  · -- nodup
    rw [hq]
    have hn1 : ((order ++ [n]) ++ rest).Nodup := by
      have heq : order ++ n :: rest = (order ++ [n]) ++ rest := by simp
      rwa [heq] at hnodup
    have hXnd : (order ++ [n]).Nodup := hn1.of_append_left
    have hsplit1 := List.nodup_append.mp hn1
    have hYnd : (rest ++ new).Nodup := by
      refine List.Nodup.append hsplit1.2.1 hndnew ?_
      intro a haR haN
      exact hnewFresh a haN (by
        rw [List.mem_append]
        exact Or.inr (List.mem_cons_of_mem n haR))
    refine List.Nodup.append hXnd hYnd ?_
    intro a haX haY
    rcases List.mem_append.mp haY with haR | haN
    · exact hsplit1.2.2 haX haR
    · apply hnewFresh a haN
      rcases List.mem_append.mp haX with haO | haSing
      · exact List.mem_append_left _ haO
      · rw [List.mem_singleton.mp haSing]
        exact List.mem_append_right _ (List.mem_cons_self n rest)
  · -- subV
    rw [hq]
    intro x hx
    rcases List.mem_append.mp hx with hx1 | hx2
    · rcases List.mem_append.mp hx1 with hxO | hxn
      · exact hinv.subV x (List.mem_append_left _ hxO)
      · rw [List.mem_singleton.mp hxn]
        exact hinv.subV n (List.mem_append_right _ (List.mem_cons_self n rest))
    · rcases List.mem_append.mp hx2 with hxR | hxN
      · exact hinv.subV x (List.mem_append_right _ (List.mem_cons_of_mem n hxR))
      · exact hnewV x hxN
  · -- seenZero
    rw [hq]
    intro t ht
    rcases List.mem_append.mp ht with ht1 | ht2
    · have h0 : cntE E order t = 0 := by
        rcases List.mem_append.mp ht1 with htO | htn
        · exact hinv.seenZero t (List.mem_append_left _ htO)
        · rw [List.mem_singleton.mp htn]
          exact hinv.seenZero n (List.mem_append_right _ (List.mem_cons_self n rest))
      have h := horder2 t
      omega
    · rcases List.mem_append.mp ht2 with htR | htN
      · have h0 : cntE E order t = 0 :=
          hinv.seenZero t (List.mem_append_right _ (List.mem_cons_of_mem n htR))
        have h := horder2 t
        omega
      · exact ((hmem2 t).mp htN).1
  · -- unseenPos
    rw [hq]
    intro t htV ht1 ht2
    have htO : t ∉ order := fun h => ht1 (List.mem_append_left _ h)
    have htn : t ≠ n := fun h =>
      ht1 (List.mem_append_right _ (by rw [h]; exact List.mem_singleton_self n))
    have htR : t ∉ rest := fun h => ht2 (List.mem_append_left _ h)
    have htN : t ∉ new := fun h => ht2 (List.mem_append_right _ h)
    have hpos : 0 < cntE E order t := by
      apply hinv.unseenPos t htV htO
      intro hmem3
      rcases List.mem_cons.mp hmem3 with h | h
      · exact htn h
      · exact htR h
    by_contra hc
    push_neg at hc
    have h0 : cntE E (order ++ [n]) t = 0 := by omega
    exact htN ((hmem2 t).mpr ⟨h0, hpos⟩)
  · -- sorted
    intro e he htmem
    rcases List.mem_append.mp htmem with htO | htn
    · exact idxLt_append order n e.source e.target (hinv.sorted e he htO)
    · have htn' : e.target = n := List.mem_singleton.mp htn
      have h0 : cntE E order n = 0 :=
        hinv.seenZero n (List.mem_append_right _ (List.mem_cons_self n rest))
      have hsrc : e.source ∈ order :=
        cntE_zero_source_mem E order n h0 e he htn'
      rw [htn']
      exact idxLt_last order n e.source hsrc hnO

/-- Members of a subset edge list lie in the subset. -/
theorem subsetEdges_mem (V : List String) (E : List Edge) (e : Edge)
    (h : e ∈ subsetEdges V E) : e ∈ E ∧ e.source ∈ V ∧ e.target ∈ V := by
  rw [subsetEdges, List.mem_filter] at h
  obtain ⟨he, hb⟩ := h
  simp only [Bool.and_eq_true, List.contains_eq_any_beq, List.any_eq_true, beq_iff_eq] at hb
  obtain ⟨⟨s, hs, hs2⟩, t, ht, ht2⟩ := hb
  exact ⟨he, by rw [hs2]; exact hs, by rw [ht2]; exact ht⟩

/-- Enough fuel drains the queue: with `|V|` iterations available past the
emitted prefix, the loop ends with an empty queue and the invariant holds
for the returned order. -/
theorem kahnLoop_spec (V : List String) (E : List Edge)
    (hE : ∀ e ∈ E, e.source ∈ V ∧ e.target ∈ V) :
    ∀ (fuel : Nat) (inDeg : String → Int) (queue order : List String),
      KahnInv V E inDeg queue order → V.length ≤ fuel + order.length →
      ∃ inDegF, KahnInv V E inDegF []
        (kahnLoop (fun m => targetsOf E m) fuel inDeg queue order) := by
  intro fuel
  induction fuel with
  | zero =>
    intro inDeg queue order hinv hfuel
    have hlen : (order ++ queue).length ≤ V.length :=
      nodup_subset_length _ _ hinv.nodup hinv.subV
    rw [List.length_append] at hlen
    cases queue with
    | nil => exact ⟨inDeg, hinv⟩
    | cons a as =>
      exfalso
      rw [List.length_cons] at hlen
      omega
  | succ fuel ih =>
    intro inDeg queue order hinv hfuel
    cases queue with
    | nil => exact ⟨inDeg, hinv⟩
    | cons n rest =>
      have hstep := kahnInv_step V E hE inDeg n rest order hinv
      have hfuel2 : V.length ≤ fuel + (order ++ [n]).length := by
        rw [List.length_append, List.length_singleton]
        omega
      obtain ⟨inDegF, hfin⟩ := ih _ _ _ hstep hfuel2
      exact ⟨inDegF, by simpa [kahnLoop] using hfin⟩

/-- The invariant holds at loop entry. -/
theorem kahnInv_init (V : List String) (ses : List Edge) (hV : V.Nodup) :
    KahnInv V ses (inDeg0Of ses) (queue0Of V ses) [] := by
  refine ⟨?_, ?_, ?_, ?_, ?_, ?_⟩
  · rw [List.nil_append]
    exact hV.filter _
  · intro x hx
    rw [List.nil_append] at hx
    exact List.mem_of_mem_filter hx
  · intro t
    rw [cntE_nil]
    rfl
  · intro t ht
    rw [List.nil_append, queue0Of, List.mem_filter] at ht
    obtain ⟨_, hb⟩ := ht
    have hz : inDeg0Of ses t = 0 := by
      exact_mod_cast (beq_iff_eq ..).mp hb
    rw [cntE_nil]
    unfold inDeg0Of at hz
    exact_mod_cast hz
  · intro t htV _ h2
    have hb : ¬(inDeg0Of ses t == 0) = true := by
      intro hc
      exact h2 (List.mem_filter.mpr ⟨htV, hc⟩)
    have hz : inDeg0Of ses t ≠ 0 := fun hc => hb ((beq_iff_eq ..).mpr hc)
    rw [cntE_nil]
    unfold inDeg0Of at hz
    by_contra hc
    push_neg at hc
    apply hz
    have : ((ses.filter (fun e => e.target == t)).length) = 0 := by omega
    exact_mod_cast this
  · intro e _ htmem
    exact absurd htmem (List.not_mem_nil _)

/-- The final invariant of the full `_topo_sort` run. -/
theorem topoSort_final (V : List String) (edges : List Edge) (hV : V.Nodup) :
    ∃ inDegF, KahnInv V (subsetEdges V edges) inDegF []
      (kahnRun V (subsetEdges V edges)) := by
  unfold kahnRun
  exact kahnLoop_spec V (subsetEdges V edges)
    (fun e he => (subsetEdges_mem V edges e he).2)
    V.length (inDeg0Of (subsetEdges V edges)) (queue0Of V (subsetEdges V edges)) []
    (kahnInv_init V (subsetEdges V edges) hV) (by simp)

/-- When the run emits all nodes, the order is a permutation of the
subset in which every subset edge goes forward. -/
theorem kahnRun_perm_of_length (V : List String) (edges : List Edge) (hV : V.Nodup)
    (hlen : (kahnRun V (subsetEdges V edges)).length = V.length) :
    (kahnRun V (subsetEdges V edges)).Perm V
    ∧ (∀ e ∈ subsetEdges V edges,
        idxLt (kahnRun V (subsetEdges V edges)) e.source e.target) := by
  obtain ⟨inDegF, hfin⟩ := topoSort_final V edges hV
  have hnd : (kahnRun V (subsetEdges V edges)).Nodup := by
    have := hfin.nodup
    simpa using this
  have hsub : ∀ x ∈ kahnRun V (subsetEdges V edges), x ∈ V := by
    intro x hx
    exact hfin.subV x (by simpa using hx)
  have hsp := List.subperm_of_subset hnd hsub
  have hperm : (kahnRun V (subsetEdges V edges)).Perm V :=
    hsp.perm_of_length_le (le_of_eq hlen.symm)
  refine ⟨hperm, ?_⟩
  intro e he
  apply hfin.sorted e he
  exact hperm.mem_iff.mpr (subsetEdges_mem V edges e he).2.2

/-- Along a list whose order respects every edge, paths strictly advance. -/
theorem epath_idxLt (E : List Edge) (order : List String)
    (hsorted : ∀ e ∈ E, idxLt order e.source e.target) :
    ∀ a b, EPath E a b → idxLt order a b := by
  intro a b hp
  induction hp with
  | base hmem => exact hsorted _ hmem
  | cons hmem _ ih =>
    obtain ⟨ha, hb, hab⟩ := hsorted _ hmem
    obtain ⟨hb2, hc, hbc⟩ := ih
    exact ⟨ha, hc, lt_trans hab hbc⟩

/-- When the run gets stuck before emitting every node, the stuck nodes
chain backwards through pending edges, and the finite subset forces a
directed cycle. -/
theorem kahnRun_cycle_of_incomplete (V : List String) (edges : List Edge) (hV : V.Nodup)
    (hlen : (kahnRun V (subsetEdges V edges)).length ≠ V.length) :
    HasCycle V edges := by
  obtain ⟨inDegF, hfin⟩ := topoSort_final V edges hV
  have hnd : (kahnRun V (subsetEdges V edges)).Nodup := by
    have := hfin.nodup
    simpa using this
  have hsub : ∀ x ∈ kahnRun V (subsetEdges V edges), x ∈ V := by
    intro x hx
    exact hfin.subV x (by simpa using hx)
  have hmissing : ∃ v ∈ V, v ∉ kahnRun V (subsetEdges V edges) := by
    by_contra hc
    push_neg at hc
    have h1 := nodup_subset_length _ _ hnd hsub
    have h2 := nodup_subset_length _ _ hV hc
    omega
  have hpred : ∀ s : {x : String // x ∈ V ∧ x ∉ kahnRun V (subsetEdges V edges)},
      ∃ s2 : {x : String // x ∈ V ∧ x ∉ kahnRun V (subsetEdges V edges)},
        Edge.mk s2.val s.val ∈ subsetEdges V edges := by
    rintro ⟨x, hxV, hxO⟩
    have hpos : 0 < cntE (subsetEdges V edges) (kahnRun V (subsetEdges V edges)) x :=
      hfin.unseenPos x hxV hxO (List.not_mem_nil x)
    obtain ⟨e, he, htg, hsrc⟩ :=
      cntE_pos_edge (subsetEdges V edges) (kahnRun V (subsetEdges V edges)) x hpos
    have hsV := (subsetEdges_mem V edges e he).2.1
    refine ⟨⟨e.source, hsV, hsrc⟩, ?_⟩
    have hee : Edge.mk e.source x = e := by
      cases e with
      | mk s t =>
        simp only at htg
        rw [htg]
    rw [hee]
    exact he
  choose f hf using hpred
  obtain ⟨v0, hv0V, hv0O⟩ := hmissing
  have hpath : ∀ i d,
      EPath (subsetEdges V edges) ((f^[i + d + 1]) ⟨v0, hv0V, hv0O⟩).val
        ((f^[i]) ⟨v0, hv0V, hv0O⟩).val := by
    intro i d
    induction d with
    | zero =>
      have hone : (f^[i + 1]) ⟨v0, hv0V, hv0O⟩ = f ((f^[i]) ⟨v0, hv0V, hv0O⟩) :=
        Function.iterate_succ_apply' f i _
      rw [show i + 0 + 1 = i + 1 from rfl, hone]
      exact EPath.base (hf _)
    | succ d ih =>
      have hone : (f^[i + d + 2]) ⟨v0, hv0V, hv0O⟩ =
          f ((f^[i + d + 1]) ⟨v0, hv0V, hv0O⟩) :=
        Function.iterate_succ_apply' f (i + d + 1) _
      have hedge : Edge.mk ((f^[i + d + 2]) ⟨v0, hv0V, hv0O⟩).val
          ((f^[i + d + 1]) ⟨v0, hv0V, hv0O⟩).val ∈ subsetEdges V edges := by
        rw [hone]
        exact hf _
      exact EPath.cons hedge ih
  have hmap : ∀ k : Fin (V.length + 1), ∀ _ : k ∈ (Finset.univ : Finset (Fin (V.length + 1))),
      ((f^[(k : Nat)]) ⟨v0, hv0V, hv0O⟩).val ∈ V.toFinset := by
    intro k _
    rw [List.mem_toFinset]
    exact ((f^[(k : Nat)]) ⟨v0, hv0V, hv0O⟩).property.1
  have hcard : V.toFinset.card < (Finset.univ : Finset (Fin (V.length + 1))).card := by
    rw [Finset.card_univ, Fintype.card_fin]
    exact lt_of_le_of_lt (List.toFinset_card_le V) (Nat.lt_succ_self _)
  obtain ⟨i, _, j, _, hne, heq⟩ :=
    Finset.exists_ne_map_eq_of_card_lt_of_maps_to hcard hmap
  have hcycle : ∀ (i2 j2 : Nat), i2 < j2 →
      ((f^[i2]) ⟨v0, hv0V, hv0O⟩).val = ((f^[j2]) ⟨v0, hv0V, hv0O⟩).val →
      HasCycle V edges := by
    intro i2 j2 hij heq2
    have hp := hpath i2 (j2 - i2 - 1)
    have hidx : i2 + (j2 - i2 - 1) + 1 = j2 := by omega
    rw [hidx] at hp
    rw [heq2] at hp
    exact ⟨_, hp⟩
  rcases Ne.lt_or_lt hne with hij | hij
  · exact hcycle i j (by exact_mod_cast hij) heq
  · exact hcycle j i (by exact_mod_cast hij) heq.symm

/-- Lookup after a `defaultdict(list)` append. -/
theorem getList_alistPush (m : List (String × List String)) (k v n : String) :
    getList (alistPush m k v) n =
      if n = k then getList m n ++ [v] else getList m n := by
  induction m with
  | nil =>
    by_cases h : n = k
    · simp [alistPush, getList, dictGet, h]
    · simp [alistPush, getList, dictGet, h, Ne.symm h]
  | cons p rest ih =>
    by_cases hp : p.1 = k
    · by_cases h : n = k
      · simp [alistPush, getList, dictGet, hp, h]
      · have hkn : ¬(k = n) := fun hc => h hc.symm
        simp [alistPush, getList, dictGet, hp, hkn, h]
    · by_cases hn : p.1 = n
      · have h : ¬(n = k) := by rw [← hn]; exact hp
        simp [alistPush, getList, dictGet, hp, hn, h]
      · rw [show alistPush (p :: rest) k v = p :: alistPush rest k v from by
          simp [alistPush, hp]]
        have h1 : getList (p :: alistPush rest k v) n = getList (alistPush rest k v) n := by
          simp [getList, dictGet, hn]
        have h2 : getList (p :: rest) n = getList rest n := by
          simp [getList, dictGet, hn]
        rw [h1, h2, ih]

/-- The `upstream` fold appends the per-target sources to whatever the
accumulator already holds. -/
theorem getList_upstream_fold (ses : List Edge) :
    ∀ (m : List (String × List String)) (n : String),
      getList (ses.foldl (fun m e => alistPush m e.target e.source) m) n =
        getList m n ++ sourcesOf ses n := by
  induction ses with
  | nil =>
    intro m n
    simp [sourcesOf]
  | cons e ses ih =>
    intro m n
    rw [List.foldl_cons, ih, getList_alistPush]
    by_cases h : n = e.target
    · subst h
      simp [sourcesOf, List.filterMap_cons, List.append_assoc]
    · have he : ¬(e.target = n) := fun hc => h hc.symm
      simp [sourcesOf, List.filterMap_cons, he, h]

/-- The returned `upstream` dict maps each node to its direct predecessors
(in subset-edge order), with missing keys reading as the empty list. -/
theorem getList_upstreamAList (ses : List Edge) (n : String) :
    getList (upstreamAList ses) n = sourcesOf ses n := by
  have := getList_upstream_fold ses [] n
  simpa [upstreamAList, getList, dictGet] using this

/-- C3: for every node subset (enumerated without duplicates) and edge
list, `_topo_sort` raises the cycle error exactly when the induced
subgraph has a directed cycle; on an acyclic subgraph it returns an
ordering of exactly the subset's nodes in which every subset edge's
source precedes its target, together with the upstream map of direct
predecessors within the subset. -/
theorem topoSort_correct (V : List String) (E : List Edge) (hV : V.Nodup) :
    (HasCycle V E → topoSort V E = Except.error "Cycle detected in subgraph")
    ∧ (¬ HasCycle V E →
        topoSort V E =
          Except.ok (kahnRun V (subsetEdges V E), upstreamAList (subsetEdges V E))
        ∧ (kahnRun V (subsetEdges V E)).Perm V
        ∧ (∀ e ∈ subsetEdges V E,
            idxLt (kahnRun V (subsetEdges V E)) e.source e.target)
        ∧ (∀ n, getList (upstreamAList (subsetEdges V E)) n =
            sourcesOf (subsetEdges V E) n)) := by
  by_cases hlen : (kahnRun V (subsetEdges V E)).length = V.length
  · have hok : topoSort V E =
        Except.ok (kahnRun V (subsetEdges V E), upstreamAList (subsetEdges V E)) := by
      unfold topoSort
      rw [if_pos hlen]
    obtain ⟨hperm, hsorted⟩ := kahnRun_perm_of_length V E hV hlen
    constructor
    · intro hcyc
      exfalso
      obtain ⟨v, hp⟩ := hcyc
      exact lt_irrefl _ (epath_idxLt _ _ hsorted v v hp).2.2
    · intro _
      exact ⟨hok, hperm, hsorted, getList_upstreamAList _⟩
  · have herr : topoSort V E = Except.error "Cycle detected in subgraph" := by
      unfold topoSort
      rw [if_neg hlen]
    have hcyc := kahnRun_cycle_of_incomplete V E hV hlen
    exact ⟨fun _ => herr, fun hnc => absurd hcyc hnc⟩

/-- Witness for C3 at a concrete two-node subset with one edge. -/
theorem topoSort_correct_witness :
    (["a", "b"] : List String).Nodup
    ∧ ((HasCycle ["a", "b"] [⟨"a", "b"⟩] →
          topoSort ["a", "b"] [⟨"a", "b"⟩] = Except.error "Cycle detected in subgraph")
        ∧ (¬ HasCycle ["a", "b"] [⟨"a", "b"⟩] →
            topoSort ["a", "b"] [⟨"a", "b"⟩] =
              Except.ok (kahnRun ["a", "b"] (subsetEdges ["a", "b"] [⟨"a", "b"⟩]),
                upstreamAList (subsetEdges ["a", "b"] [⟨"a", "b"⟩]))
            ∧ (kahnRun ["a", "b"] (subsetEdges ["a", "b"] [⟨"a", "b"⟩])).Perm ["a", "b"]
            ∧ (∀ e ∈ subsetEdges ["a", "b"] [⟨"a", "b"⟩],
                idxLt (kahnRun ["a", "b"] (subsetEdges ["a", "b"] [⟨"a", "b"⟩]))
                  e.source e.target)
            ∧ (∀ n, getList (upstreamAList (subsetEdges ["a", "b"] [⟨"a", "b"⟩])) n =
                sourcesOf (subsetEdges ["a", "b"] [⟨"a", "b"⟩]) n))) :=
  ⟨by decide, topoSort_correct ["a", "b"] [⟨"a", "b"⟩] (by decide)⟩

end Mirador
